import Mathlib

/-!
Shallow embedding of the hackathon fetch-and-aggregate pipeline
(`fetch_stats.py`) and proofs about it.

Modelling conventions:
* Timestamps are `Int` minutes since the Unix epoch, UTC.  The Python code
  works with timezone-aware `datetime` values; only their order, the
  five-minute incremental safety margin, and the calendar date they fall on
  matter here.  A calendar date is the floor of the timestamp divided by
  1440 (minutes per day), matching `datetime.date()` truncation in UTC.
* Python dicts that preserve insertion order (`participants`, `repo_stats`,
  `daily_activity`, `daily_merged_prs`, the org-repos cache) are modelled as
  association lists in insertion order with `lookupKey` / `upsert` /
  `adjust` mirroring membership test, insert-default-then-mutate, and
  update-if-present.
* `sorted(..., key=k, reverse=True)` is Python's stable sort; it is modelled
  by the stable descending insertion sort `sortDescBy` (any two stable
  descending sorts agree extensionally).
* Raw JSON payload fields the aggregation reads are record fields; the
  parsed JSON body returned by `make_request` is abstracted to a `Nat`.
-/

/-- Lowercase a string, as Python `str.lower()` on ASCII input. -/
def strLower (s : String) : String := String.mk (s.toList.map Char.toLower)

/-- Substring containment, as Python `needle in hay`. -/
def strHas (needle hay : String) : Bool :=
  hay.toList.tails.any (fun t => needle.toList.isPrefixOf t)

/-- Suffix test, as Python `hay.endswith(needle)`. -/
def strEndsWith (needle hay : String) : Bool :=
  needle.toList.isSuffixOf hay.toList

/-- Bot detection from `process_hackathon_stats`:
`"[bot]" in username or username.lower().endswith("bot")`. -/
def is_bot (username : String) : Bool :=
  strHas "[bot]" username || strEndsWith "bot" (strLower username)

/-- Case-insensitive containment of `"copilot"` in a string
(`"copilot" in s.lower()`). -/
def hasCopilot (s : String) : Bool := strHas "copilot" (strLower s)

/-- Minutes per day; `dayOf` truncates a timestamp to its calendar date. -/
def minutesPerDay : Int := 1440

/-- Calendar date of a timestamp (floor division, matching UTC `.date()`). -/
def dayOf (t : Int) : Int := Int.fdiv t minutesPerDay

/-- Association-list lookup (Python `d[k]` / `k in d`). -/
def lookupKey {α β : Type} [DecidableEq α] : List (α × β) → α → Option β
  | [], _ => none
  | (k, v) :: rest, key => if k = key then some v else lookupKey rest key

/-- Python's `if k not in d: d[k] = init` followed by a mutation `f` of
`d[k]`: modify the entry in place when the key is present, otherwise append
`(k, f init)` at the end (dict insertion order). -/
def upsert {α β : Type} [DecidableEq α]
    (m : List (α × β)) (k : α) (init : β) (f : β → β) : List (α × β) :=
  match m with
  | [] => [(k, f init)]
  | (k', v) :: rest =>
    if k' = k then (k', f v) :: rest else (k', v) :: upsert rest k init f

/-- Python's `if k in d: d[k] = f(d[k])`: update the entry when the key is
present, otherwise leave the list unchanged. -/
def adjust {α β : Type} [DecidableEq α]
    (m : List (α × β)) (k : α) (f : β → β) : List (α × β) :=
  match m with
  | [] => []
  | (k', v) :: rest =>
    if k' = k then (k', f v) :: rest else (k', v) :: adjust rest k f

/-- A pull request record, with the fields `fetch_stats.py` reads. -/
structure PullRequest where
  number : Nat
  user : String
  avatar_url : String
  html_url : String
  title : String
  created_at : Int
  updated_at : Int
  merged_at : Option Int
  repository : String
deriving DecidableEq, Repr

/-- A review record as tagged by `process_hackathon` (repository,
`pull_request_url` and `pull_request_title` attached post-fetch). -/
structure Review where
  id : Nat
  user : String
  avatar_url : String
  user_html_url : String
  state : String
  submitted_at : Option Int
  html_url : String
  pull_request_url : String
  pull_request_title : String
  repository : String
deriving DecidableEq, Repr

/-- An issue record, with the fields the aggregation reads. -/
structure Issue where
  created_at : Int
  closed_at : Option Int
  state : String
  repository : String
deriving DecidableEq, Repr

/-- One daily-activity bucket: PRs created / PRs merged on that date. -/
structure Bucket where
  total : Nat
  merged : Nat
deriving DecidableEq, Repr

/-- Per-repository totals. -/
structure RepoStat where
  total : Nat
  merged : Nat
  issues : Nat
  closedIssues : Nat
deriving DecidableEq, Repr

/-- The review summary appended to a participant's `reviews` list. -/
structure ReviewSummary where
  id : Nat
  state : String
  submitted_at : Option Int
  html_url : String
  pull_request_url : String
  pull_request_title : String
deriving DecidableEq, Repr

/-- A participant aggregate, keyed by author login. -/
structure Participant where
  username : String
  avatar : String
  url : String
  mergedCount : Nat
  prCount : Nat
  reviewCount : Nat
  reviews : List ReviewSummary
deriving DecidableEq, Repr

/-- The statistics object returned by `process_hackathon_stats`. -/
structure Stats where
  totalPRs : Nat
  mergedPRs : Nat
  totalIssues : Nat
  closedIssues : Nat
  participantCount : Nat
  leaderboard : List Participant
  reviewLeaderboard : List Participant
  repoStats : List (String × RepoStat)
  dailyActivity : List (Int × Bucket)
  dailyMergedPRs : List (Int × Nat)
deriving DecidableEq, Repr

/-- Tag a fetched record with its owning repository
(`pr["repository"] = f"{owner}/{repo}"`). -/
def setRepo (owner repo : String) (pr : PullRequest) : PullRequest :=
  { pr with repository := owner ++ "/" ++ repo }

/-- The relevance filter of `fetch_pull_requests`: retained when the
creation time, or the merge time when merged, lies in `[start_dt, end_dt]`
(both comparisons in the source are inclusive). -/
def relevantPR (start_dt end_dt : Int) (pr : PullRequest) : Bool :=
  (decide (start_dt ≤ pr.created_at) && decide (pr.created_at ≤ end_dt)) ||
  (match pr.merged_at with
   | some m => decide (start_dt ≤ m) && decide (m ≤ end_dt)
   | none => false)

/-- `fetch_pull_requests`, applied to the stream of pull requests the
paginated API yields for one repository.  With `since = some s` the loop
breaks at the first record whose update time is before `s` (early exit on
update-sorted results); otherwise each record is kept iff `relevantPR`
holds, tagged with its repository. -/
def fetch_pull_requests (owner repo : String) (start_dt end_dt : Int)
    (since : Option Int) : List PullRequest → List PullRequest
  | [] => []
  | pr :: rest =>
    if (match since with
        | some s => decide (pr.updated_at < s)
        | none => false) then
      []
    else if relevantPR start_dt end_dt pr then
      setRepo owner repo pr :: fetch_pull_requests owner repo start_dt end_dt since rest
    else
      fetch_pull_requests owner repo start_dt end_dt since rest

/-- The incremental watermark from `process_hackathon`:
`since = lastUpdated - timedelta(minutes=5)`. -/
def watermark (lastUpdated : Int) : Int := lastUpdated - 5

/-- Repository resolution from `process_hackathon`: `org_repos = none`
models an event without an organization; with an organization the fetched
(or cached) listing is merged only when nonempty, via the Python set union
`list({*repositories, *org_repos})` (dedup; iteration order unspecified in
Python, modelled canonically by `List.dedup`). -/
def resolveRepositories (explicit_repos : List String)
    (org_repos : Option (List String)) : List String :=
  match org_repos with
  | none => explicit_repos
  | some org =>
    if org.isEmpty then explicit_repos else (explicit_repos ++ org).dedup

/-- The `if not repositories: return None` guard of `process_hackathon`:
an empty resolved list skips the event (with a warning), producing no
stats. -/
def repoResolutionResult (explicit_repos : List String)
    (org_repos : Option (List String)) : Option (List String) :=
  let r := resolveRepositories explicit_repos org_repos
  if r.isEmpty then none else some r

/-- The daily-activity map pre-population loop of `process_hackathon_stats`
(`while current_date <= end_date`), as the list of dates from `startDay` to
`endDay` inclusive, each with a zero bucket. -/
def dailyInit (startDay endDay : Int) : List (Int × Bucket) :=
  (List.range (endDay - startDay + 1).toNat).map
    (fun i : Nat => (startDay + (i : Int), ⟨0, 0⟩))

/-- Seed `repo_stats` with a zero row for every resolved repository
(`{r: {...} for r in repositories}`; duplicate keys collapse as in a dict
comprehension). -/
def initRepoStats (repositories : List String) : List (String × RepoStat) :=
  repositories.foldl (fun m r => upsert m r ⟨0, 0, 0, 0⟩ id) []

/-- Mutable state threaded through the three aggregation loops of
`process_hackathon_stats`. -/
structure AggState where
  daily_activity : List (Int × Bucket)
  participants : List (String × Participant)
  repo_stats : List (String × RepoStat)
  total_prs : Nat
  merged_prs : Nat
  daily_merged_prs : List (Int × Nat)
  total_issues : Nat
  closed_issues : Nat
deriving DecidableEq, Repr

/-- A fresh participant entry, as first created from a pull request. -/
def initParticipantPR (pr : PullRequest) : Participant :=
  { username := pr.user, avatar := pr.avatar_url, url := pr.html_url,
    mergedCount := 0, prCount := 0, reviewCount := 0, reviews := [] }

/-- A fresh participant entry, as first created from a review. -/
def initParticipantReview (r : Review) : Participant :=
  { username := r.user, avatar := r.avatar_url, url := r.user_html_url,
    mergedCount := 0, prCount := 0, reviewCount := 0, reviews := [] }

/-- The review summary recorded on the reviewer's participant entry. -/
def summaryOfReview (r : Review) : ReviewSummary :=
  { id := r.id, state := r.state, submitted_at := r.submitted_at,
    html_url := r.html_url, pull_request_url := r.pull_request_url,
    pull_request_title := r.pull_request_title }

/-- Credit a pull request to its author: create the participant entry when
absent, then bump `prCount` and, for a merged PR, `mergedCount`. -/
def applyPRAuthor (pr : PullRequest) (m : List (String × Participant)) :
    List (String × Participant) :=
  upsert m pr.user (initParticipantPR pr)
    (fun p => { p with prCount := p.prCount + 1,
                       mergedCount := p.mergedCount + (if pr.merged_at.isSome then 1 else 0) })

/-- The participant-crediting exclusion applied to a pull request's author:
bot login, or "copilot" in the login or the PR title (case-insensitive). -/
def prExcluded (pr : PullRequest) : Bool :=
  is_bot pr.user || (hasCopilot pr.user || hasCopilot pr.title)

/-- Body of the `for pr in prs` loop of `process_hackathon_stats`. -/
def processPR (start_dt end_dt : Int) (st : AggState) (pr : PullRequest) : AggState :=
  let is_merged := pr.merged_at.isSome
  let username := pr.user
  let bot := is_bot username
  let copilot := hasCopilot username || hasCopilot pr.title
  let repo_key := pr.repository
  let repo_stats1 :=
    adjust (upsert st.repo_stats repo_key ⟨0, 0, 0, 0⟩ id) repo_key
      (fun s => { s with total := s.total + 1,
                         merged := s.merged + (if is_merged then 1 else 0) })
  let created_date := dayOf pr.created_at
  let daily1 :=
    if decide (start_dt ≤ pr.created_at) && decide (pr.created_at ≤ end_dt) then
      adjust st.daily_activity created_date (fun b => { b with total := b.total + 1 })
    else st.daily_activity
  let daily2 :=
    match pr.merged_at with
    | some m => adjust daily1 (dayOf m) (fun b => { b with merged := b.merged + 1 })
    | none => daily1
  let dmp :=
    match pr.merged_at with
    | some m => upsert st.daily_merged_prs (dayOf m) 0 (fun n => n + 1)
    | none => st.daily_merged_prs
  let parts :=
    if bot || copilot then st.participants
    else applyPRAuthor pr st.participants
  { st with
    total_prs := st.total_prs + 1,
    merged_prs := st.merged_prs + (if is_merged then 1 else 0),
    repo_stats := repo_stats1,
    daily_activity := daily2,
    daily_merged_prs := dmp,
    participants := parts }

/-- Credit a review to its reviewer: create the participant entry when
absent, then bump `reviewCount` and append the review summary. -/
def applyReview (r : Review) (m : List (String × Participant)) :
    List (String × Participant) :=
  upsert m r.user (initParticipantReview r)
    (fun p => { p with reviewCount := p.reviewCount + 1,
                       reviews := p.reviews ++ [summaryOfReview r] })

/-- Body of the `for review in all_reviews` loop of
`process_hackathon_stats`. -/
def processReview (start_dt end_dt : Int) (st : AggState) (r : Review) : AggState :=
  let username := r.user
  let bot := is_bot username
  let copilot := hasCopilot username
  if bot || copilot || r.state == "DISMISSED" then st
  else
    match r.submitted_at with
    | none => st
    | some t =>
      if decide (start_dt ≤ t) && decide (t ≤ end_dt) then
        { st with participants := applyReview r st.participants }
      else st

/-- Body of the `for issue in issues` loop of `process_hackathon_stats`. -/
def processIssue (st : AggState) (issue : Issue) : AggState :=
  let repo_key := issue.repository
  let closed := issue.state == "closed"
  let repo_stats1 :=
    adjust (upsert st.repo_stats repo_key ⟨0, 0, 0, 0⟩ id) repo_key
      (fun s => { s with issues := s.issues + 1,
                         closedIssues := s.closedIssues + (if closed then 1 else 0) })
  { st with
    repo_stats := repo_stats1,
    total_issues := st.total_issues + 1,
    closed_issues := st.closed_issues + (if closed then 1 else 0) }

/-- The three aggregation loops, run over pre-populated initial state. -/
def aggregate (prs : List PullRequest) (all_reviews : List Review)
    (issues : List Issue) (start_dt end_dt : Int)
    (repositories : List String) : AggState :=
  let st0 : AggState :=
    { daily_activity := dailyInit (dayOf start_dt) (dayOf end_dt),
      participants := [],
      repo_stats := initRepoStats repositories,
      total_prs := 0, merged_prs := 0,
      daily_merged_prs := [], total_issues := 0, closed_issues := 0 }
  let st1 := prs.foldl (processPR start_dt end_dt) st0
  let st2 := all_reviews.foldl (processReview start_dt end_dt) st1
  issues.foldl processIssue st2

/-- Insert `x` after every element whose key is at least `key x`: one step
of a stable descending insertion sort. -/
def insertDescBy {α : Type} (key : α → Nat) (x : α) : List α → List α
  | [] => [x]
  | y :: ys => if key x ≤ key y then y :: insertDescBy key x ys else x :: y :: ys

/-- Stable sort, descending by `key`; extensionally equal to Python's
stable `sorted(..., key=key, reverse=True)`. -/
def sortDescBy {α : Type} (key : α → Nat) (l : List α) : List α :=
  l.foldl (fun acc x => insertDescBy key x acc) []

/-- `process_hackathon_stats`: aggregate the three record streams and build
the result object, leaderboards restricted to strictly positive counts and
stably sorted descending. -/
def process_hackathon_stats (prs : List PullRequest) (all_reviews : List Review)
    (issues : List Issue) (start_dt end_dt : Int)
    (repositories : List String) : Stats :=
  let st := aggregate prs all_reviews issues start_dt end_dt repositories
  let values := st.participants.map Prod.snd
  { totalPRs := st.total_prs,
    mergedPRs := st.merged_prs,
    totalIssues := st.total_issues,
    closedIssues := st.closed_issues,
    participantCount := st.participants.length,
    leaderboard :=
      sortDescBy (fun p => p.mergedCount)
        (values.filter (fun p => decide (0 < p.mergedCount))),
    reviewLeaderboard :=
      sortDescBy (fun p => p.reviewCount)
        (values.filter (fun p => decide (0 < p.reviewCount))),
    repoStats := st.repo_stats,
    dailyActivity := st.daily_activity,
    dailyMergedPRs := st.daily_merged_prs }

/-- Outcome of the success branch `json.loads(response.read().decode("utf-8"))`
of `make_request` on a 2xx response: a parsed document (abstracted to a
`Nat`), or a read/decode/parse failure — `JSONDecodeError`,
`UnicodeDecodeError`, a truncated or timed-out read — which raises an
exception that the `except HTTPError` / `except URLError` clauses do not
catch. -/
inductive BodyOutcome where
  | parsed (body : Nat)
  | unparsable
deriving DecidableEq, Repr

/-- The `X-RateLimit-Reset` header of a 429/403 response, when present:
either numeric, accepted by `int(reset)`, or malformed, on which
`int(reset)` raises an uncaught `ValueError`. -/
inductive ResetHeader where
  | numeric (reset : Int)
  | malformed
deriving DecidableEq, Repr

/-- One response the transport layer can deliver to a single request: a
2xx response together with its body-read outcome, an `HTTPError` with
status code and optional `X-RateLimit-Reset` header, or a `URLError`. -/
inductive HttpResp where
  | ok (body : BodyOutcome)
  | httpError (code : Nat) (resetHint : Option ResetHeader)
  | urlError
deriving DecidableEq, Repr

/-- What `make_request` does for its caller: return a value (parsed JSON
or `None`), or let an exception propagate out of the function. -/
inductive ReqResult where
  | returned (body : Option Nat)
  | raised
deriving DecidableEq, Repr

/-- Sleep length of the 429/403 branch of `make_request` when the reset
header is absent or numeric:
`wait = max(int(reset) - int(time.time()) + 5, 10) if reset else 60`,
slept as `min(wait, 300)`. -/
def rateLimitWait (now : Int) (resetHint : Option Int) : Int :=
  match resetHint with
  | some reset => min (max (reset - now + 5) 10) 300
  | none => 60

/-- The `for attempt in range(retry_count)` loop of `make_request`.
`resps i` is the response delivered to the request of attempt `i`.
Returns (result, number of requests issued, sleeps performed).  An
unparsable 2xx body, or a malformed reset header on a rate-limit
response, makes the function raise to its caller (`.raised`): those
exceptions arise outside the reach of the two `except` clauses. -/
def makeRequestAux (now : Int) (retry_count : Nat) (resps : Nat → HttpResp) :
    Nat → Nat → ReqResult × Nat × List Int
  | 0, _ => (.returned none, 0, [])
  | remaining + 1, attempt =>
    match resps attempt with
    | .ok (.parsed body) => (.returned (some body), 1, [])
    | .ok .unparsable => (.raised, 1, [])
    | .httpError code hint =>
      if code = 429 ∨ code = 403 then
        match hint with
        | some .malformed => (.raised, 1, [])
        | some (.numeric reset) =>
          let rec_ := makeRequestAux now retry_count resps remaining (attempt + 1)
          (rec_.1, rec_.2.1 + 1, rateLimitWait now (some reset) :: rec_.2.2)
        | none =>
          let rec_ := makeRequestAux now retry_count resps remaining (attempt + 1)
          (rec_.1, rec_.2.1 + 1, rateLimitWait now none :: rec_.2.2)
      else if code = 404 then (.returned none, 1, [])
      else if attempt < retry_count - 1 then
        let rec_ := makeRequestAux now retry_count resps remaining (attempt + 1)
        (rec_.1, rec_.2.1 + 1, (5 * (attempt + 1) : Int) :: rec_.2.2)
      else (.returned none, 1, [])
    | .urlError =>
      if attempt < retry_count - 1 then
        let rec_ := makeRequestAux now retry_count resps remaining (attempt + 1)
        (rec_.1, rec_.2.1 + 1, (5 * (attempt + 1) : Int) :: rec_.2.2)
      else (.returned none, 1, [])

/-- `make_request(url, token, retry_count)` over a stream of responses. -/
def make_request (now : Int) (retry_count : Nat) (resps : Nat → HttpResp) :
    ReqResult × Nat × List Int :=
  makeRequestAux now retry_count resps retry_count 0

/-- A response neither terminal nor raising: the request will be retried
(rate-limit wait or linear backoff) while attempts remain. -/
def retryableResp (r : HttpResp) : Bool :=
  match r with
  | .ok _ => false
  | .httpError code hint =>
    if code = 429 ∨ code = 403 then
      match hint with
      | some .malformed => false
      | _ => true
    else decide (code ≠ 404)
  | .urlError => true

/-- A retryable response that is not a rate-limit signal: its retry uses
the linear `5 * (attempt + 1)` backoff. -/
def plainErrorResp (r : HttpResp) : Bool :=
  match r with
  | .ok _ => false
  | .httpError code _ => decide (code ≠ 404 ∧ code ≠ 429 ∧ code ≠ 403)
  | .urlError => true

/-- A response on which `make_request` does not raise: any HTTP status or
transport error (with a numeric or absent reset header when rate-limited)
and any 2xx response whose body parses. -/
def nonRaisingResp (r : HttpResp) : Bool :=
  match r with
  | .ok (.parsed _) => true
  | .ok .unparsable => false
  | .httpError code hint =>
    if code = 429 ∨ code = 403 then
      match hint with
      | some .malformed => false
      | _ => true
    else true
  | .urlError => true

/-- State of one run's organization-repository handling: the shared cache
(`org_repos_cache` in `main`), plus logs of API fetches and cache writes
performed, for stating at-most-once properties. -/
structure OrgRunState where
  cache : List (String × List String)
  fetchLog : List String
  writeLog : List String
deriving DecidableEq, Repr

/-- The org-repos lookup of `process_hackathon` for one event referencing
`org`: use the cached listing when present, otherwise fetch (`api org`,
with `[]` standing for a failed or empty listing) and cache the result only
when it is nonempty. -/
def resolveOrg (api : String → List String) (st : OrgRunState) (org : String) :
    List String × OrgRunState :=
  match lookupKey st.cache org with
  | some repos => (repos, st)
  | none =>
    let fetched := api org
    let st' : OrgRunState :=
      { cache := if fetched.isEmpty then st.cache else st.cache ++ [(org, fetched)],
        fetchLog := st.fetchLog ++ [org],
        writeLog := if fetched.isEmpty then st.writeLog else st.writeLog ++ [org] }
    (fetched, st')

/-- Sequential processing of the events of one run, restricted to their
organization lookups (`orgs` lists, in order, the organization of each
event that declares one). -/
def runOrgResolutions (api : String → List String) (orgs : List String)
    (st : OrgRunState) : OrgRunState :=
  orgs.foldl (fun s o => (resolveOrg api s o).2) st

/-- Outcome of `process_hackathon` for one event, as observed by `main`:
a data document, `None` (no repositories resolved), or a raised exception
(caught at the per-event boundary). -/
inductive POutcome where
  | ok (data : Nat)
  | noRepos
  | raises
deriving DecidableEq, Repr

/-- Per-event configuration as `main` reads it: slug, end time, and whether
`hackathon-data/slug.json` already exists on disk. -/
structure EventCfg where
  slug : String
  endTime : Int
  hasDataFile : Bool
deriving DecidableEq, Repr

/-- Observable result of a run of `main`'s event loop. -/
structure RunResult where
  visited : List String
  saved : List String
  errors : List String
  summaryWritten : Bool
deriving DecidableEq, Repr

/-- `is_hackathon_active`: keep updating while `now <= end_dt`. -/
def is_hackathon_active (now endTime : Int) : Bool := decide (now ≤ endTime)

/-- One iteration of `main`'s `for hackathon in hackathons` loop: an ended
event with an existing data file is skipped; otherwise the event is
processed, a raised exception is caught and logged, and a returned document
is saved. -/
def eventStep (now : Int) (outcome : EventCfg → POutcome)
    (st : RunResult) (ev : EventCfg) : RunResult :=
  let st := { st with visited := st.visited ++ [ev.slug] }
  if is_hackathon_active now ev.endTime = false ∧ ev.hasDataFile then st
  else
    match outcome ev with
    | .ok _ => { st with saved := st.saved ++ [ev.slug] }
    | .noRepos => st
    | .raises => { st with errors := st.errors ++ [ev.slug] }

/-- `main`: exit nonzero when the configuration file is absent or lists no
events; otherwise run the event loop and write the global summary. -/
def runMain (now : Int) (outcome : EventCfg → POutcome)
    (configPresent : Bool) (events : List EventCfg) : Option RunResult :=
  if configPresent = false then none
  else if events.isEmpty then none
  else
    some { events.foldl (eventStep now outcome) ⟨[], [], [], false⟩ with
           summaryWritten := true }

theorem adjust_map_fst {α β : Type} [DecidableEq α] (m : List (α × β)) (k : α)
    (f : β → β) : (adjust m k f).map Prod.fst = m.map Prod.fst := by
  induction m with
  | nil => rfl
  | cons hd tl ih =>
    obtain ⟨k', v⟩ := hd
    by_cases h : k' = k <;> simp [adjust, h, ih]

theorem lookupKey_upsert_self {α β : Type} [DecidableEq α] (m : List (α × β))
    (k : α) (init : β) (f : β → β) :
    lookupKey (upsert m k init f) k = some (f ((lookupKey m k).getD init)) := by
  induction m with
  | nil => simp [upsert, lookupKey]
  | cons hd tl ih =>
    obtain ⟨k', v⟩ := hd
    by_cases h : k' = k <;> simp [upsert, lookupKey, h, ih]

theorem lookupKey_upsert_ne {α β : Type} [DecidableEq α] (m : List (α × β))
    (k' k : α) (init : β) (f : β → β) (h : k' ≠ k) :
    lookupKey (upsert m k' init f) k = lookupKey m k := by
  induction m with
  | nil => simp [upsert, lookupKey, h]
  | cons hd tl ih =>
    obtain ⟨k₀, v⟩ := hd
    by_cases h0 : k₀ = k' <;> by_cases h1 : k₀ = k <;>
      simp_all [upsert, lookupKey]

theorem upsert_mem_cases {α β : Type} [DecidableEq α] {m : List (α × β)}
    {k : α} {init : β} {f : β → β} {x : α × β} (hx : x ∈ upsert m k init f) :
    x ∈ m ∨ (x.1 = k ∧ (x.2 = f init ∨ ∃ p, (k, p) ∈ m ∧ x.2 = f p)) := by
  induction m with
  | nil =>
    simp [upsert] at hx
    subst hx
    exact Or.inr ⟨rfl, Or.inl rfl⟩
  | cons hd tl ih =>
    obtain ⟨k', v⟩ := hd
    by_cases h : k' = k
    · subst h
      simp [upsert] at hx
      rcases hx with hx | hx
      · subst hx
        exact Or.inr ⟨rfl, Or.inr ⟨v, by simp⟩⟩
      · exact Or.inl (List.mem_cons_of_mem _ hx)
    · simp [upsert, h] at hx
      rcases hx with hx | hx
      · subst hx
        exact Or.inl (List.mem_cons_self _ _)
      · rcases ih hx with h1 | ⟨h1, h2⟩
        · exact Or.inl (List.mem_cons_of_mem _ h1)
        · refine Or.inr ⟨h1, ?_⟩
          rcases h2 with h2 | ⟨p, hp, h2⟩
          · exact Or.inl h2
          · exact Or.inr ⟨p, List.mem_cons_of_mem _ hp, h2⟩

theorem lookupKey_append_some {α β : Type} [DecidableEq α] {m m₂ : List (α × β)}
    {k : α} {v : β} (h : lookupKey m k = some v) :
    lookupKey (m ++ m₂) k = some v := by
  induction m with
  | nil => simp [lookupKey] at h
  | cons hd tl ih =>
    obtain ⟨k', w⟩ := hd
    by_cases h0 : k' = k <;> simp_all [lookupKey]

theorem lookupKey_append_single_ne {α β : Type} [DecidableEq α]
    (m : List (α × β)) (k' k : α) (v : β) (h : k' ≠ k) :
    lookupKey (m ++ [(k', v)]) k = lookupKey m k := by
  induction m with
  | nil => simp [lookupKey, h]
  | cons hd tl ih =>
    obtain ⟨k₀, w⟩ := hd
    by_cases h0 : k₀ = k <;> simp_all [lookupKey]

theorem lookupKey_append_single_self {α β : Type} [DecidableEq α]
    (m : List (α × β)) (k : α) (v : β) (h : lookupKey m k = none) :
    lookupKey (m ++ [(k, v)]) k = some v := by
  induction m with
  | nil => simp [lookupKey]
  | cons hd tl ih =>
    obtain ⟨k₀, w⟩ := hd
    by_cases h0 : k₀ = k <;> simp_all [lookupKey]

theorem insertDescBy_perm {α : Type} (key : α → Nat) (x : α) (l : List α) :
    List.Perm (insertDescBy key x l) (x :: l) := by
  induction l with
  | nil => rfl
  | cons y ys ih =>
    by_cases h : key x ≤ key y
    · simp only [insertDescBy, if_pos h]
      exact List.Perm.trans (List.Perm.cons y ih) (List.Perm.swap x y ys)
    · simp only [insertDescBy, if_neg h]
      exact List.Perm.refl _

theorem sortDescBy_perm_aux {α : Type} (key : α → Nat) (l acc : List α) :
    List.Perm (l.foldl (fun a x => insertDescBy key x a) acc) (acc ++ l) := by
  induction l generalizing acc with
  | nil => simp
  | cons x xs ih =>
    have h1 : (x :: xs).foldl (fun a x => insertDescBy key x a) acc
        = xs.foldl (fun a x => insertDescBy key x a) (insertDescBy key x acc) := rfl
    rw [h1]
    refine (ih (insertDescBy key x acc)).trans ?_
    refine (List.Perm.append_right xs (insertDescBy_perm key x acc)).trans ?_
    exact List.perm_middle.symm

theorem sortDescBy_perm {α : Type} (key : α → Nat) (l : List α) :
    List.Perm (sortDescBy key l) l := sortDescBy_perm_aux key l []

theorem sortDescBy_mem {α : Type} (key : α → Nat) (l : List α) (x : α) :
    x ∈ sortDescBy key l ↔ x ∈ l := (sortDescBy_perm key l).mem_iff

theorem insertDescBy_pairwise {α : Type} (key : α → Nat) (x : α) {l : List α}
    (h : l.Pairwise (fun a b => key b ≤ key a)) :
    (insertDescBy key x l).Pairwise (fun a b => key b ≤ key a) := by
  induction l with
  | nil => simp [insertDescBy]
  | cons y ys ih =>
    rcases List.pairwise_cons.mp h with ⟨hy, hys⟩
    by_cases hk : key x ≤ key y
    · simp only [insertDescBy, if_pos hk]
      refine List.pairwise_cons.mpr ⟨?_, ih hys⟩
      intro z hz
      rcases List.mem_cons.mp ((insertDescBy_perm key x ys).mem_iff.mp hz) with h1 | h1
      · subst h1; exact hk
      · exact hy z h1
    · simp only [insertDescBy, if_neg hk]
      refine List.pairwise_cons.mpr ⟨?_, h⟩
      intro z hz
      rcases List.mem_cons.mp hz with h1 | h1
      · subst h1; exact le_of_lt (Nat.lt_of_not_le hk)
      · exact le_trans (hy z h1) (le_of_lt (Nat.lt_of_not_le hk))

theorem sortDescBy_pairwise_aux {α : Type} (key : α → Nat) (l acc : List α)
    (hacc : acc.Pairwise (fun a b => key b ≤ key a)) :
    (l.foldl (fun a x => insertDescBy key x a) acc).Pairwise
      (fun a b => key b ≤ key a) := by
  induction l generalizing acc with
  | nil => exact hacc
  | cons x xs ih => exact ih (insertDescBy key x acc) (insertDescBy_pairwise key x hacc)

theorem sortDescBy_pairwise {α : Type} (key : α → Nat) (l : List α) :
    (sortDescBy key l).Pairwise (fun a b => key b ≤ key a) :=
  sortDescBy_pairwise_aux key l [] (by simp)

theorem insertDescBy_filter {α : Type} (key : α → Nat) (x : α) (l : List α)
    (c : Nat) (h : l.Pairwise (fun a b => key b ≤ key a)) :
    (insertDescBy key x l).filter (fun a => key a == c) =
      if key x = c then (l.filter (fun a => key a == c)) ++ [x]
      else l.filter (fun a => key a == c) := by
  induction l with
  | nil =>
    by_cases hc : key x = c <;> simp [insertDescBy, List.filter_cons, hc]
  | cons y ys ih =>
    rcases List.pairwise_cons.mp h with ⟨hy, hys⟩
    by_cases hk : key x ≤ key y
    · simp only [insertDescBy, if_pos hk]
      by_cases hyc : key y = c <;> by_cases hc : key x = c <;>
        simp_all [List.filter_cons, ih hys]
    · simp only [insertDescBy, if_neg hk]
      have hlt : key y < key x := Nat.lt_of_not_le hk
      by_cases hc : key x = c
      · have hnil : (y :: ys).filter (fun a => key a == c) = [] := by
          rw [List.filter_eq_nil_iff]
          intro a ha
          have : key a ≤ key y := by
            rcases List.mem_cons.mp ha with h1 | h1
            · subst h1; exact le_refl _
            · exact hy a h1
          simp only [beq_iff_eq]
          omega
        simp [List.filter_cons, hc, hnil]
      · have hxc : (key x == c) = false := by simp [hc]
        simp [List.filter_cons, hxc, hc]

theorem sortDescBy_filter {α : Type} (key : α → Nat) (l : List α) (c : Nat) :
    (sortDescBy key l).filter (fun a => key a == c) =
      l.filter (fun a => key a == c) := by
  induction l using List.reverseRecOn with
  | nil => rfl
  | append_singleton xs x ih =>
    have h1 : sortDescBy key (xs ++ [x]) = insertDescBy key x (sortDescBy key xs) := by
      simp [sortDescBy, List.foldl_append]
    rw [h1, insertDescBy_filter key x _ c (sortDescBy_pairwise key xs)]
    by_cases hc : key x = c
    · simp [hc, ih, List.filter_append, List.filter_cons]
    · simp [hc, ih, List.filter_append, List.filter_cons]

theorem relevantPR_setRepo (owner repo : String) (s e : Int) (pr : PullRequest) :
    relevantPR s e (setRepo owner repo pr) = relevantPR s e pr := rfl

theorem fetch_since_lower_bound (owner repo : String) (s e sc : Int)
    (prs : List PullRequest) :
    ∀ q ∈ fetch_pull_requests owner repo s e (some sc) prs, sc ≤ q.updated_at := by
  induction prs with
  | nil => intro q hq; simp [fetch_pull_requests] at hq
  | cons pr rest ih =>
    intro q hq
    by_cases hbrk : pr.updated_at < sc
    · simp [fetch_pull_requests, hbrk] at hq
    · simp only [fetch_pull_requests, decide_eq_true_eq, if_neg hbrk] at hq
      by_cases hrel : relevantPR s e pr = true
      · rw [if_pos hrel] at hq
        rcases List.mem_cons.mp hq with h1 | h1
        · subst h1; simpa [setRepo] using Int.not_lt.mp hbrk
        · exact ih q h1
      · rw [if_neg hrel] at hq
        exact ih q hq

theorem fetch_since_complete (owner repo : String) (s e sc : Int)
    (prs : List PullRequest)
    (hsorted : prs.Pairwise (fun a b => b.updated_at ≤ a.updated_at)) :
    ∀ pr ∈ prs, sc ≤ pr.updated_at → relevantPR s e pr = true →
      setRepo owner repo pr ∈ fetch_pull_requests owner repo s e (some sc) prs := by
  induction prs with
  | nil => intro pr hpr; simp at hpr
  | cons hd rest ih =>
    rcases List.pairwise_cons.mp hsorted with ⟨hhd, hrest⟩
    intro pr hpr hw hrel
    by_cases hbrk : hd.updated_at < sc
    · exfalso
      rcases List.mem_cons.mp hpr with h1 | h1
      · subst h1; omega
      · have := hhd pr h1; omega
    · simp only [fetch_pull_requests, decide_eq_true_eq, if_neg hbrk]
      by_cases hrelhd : relevantPR s e hd = true
      · rw [if_pos hrelhd]
        rcases List.mem_cons.mp hpr with h1 | h1
        · subst h1; exact List.mem_cons_self _ _
        · exact List.mem_cons_of_mem _ (ih hrest pr h1 hw hrel)
      · rw [if_neg hrelhd]
        rcases List.mem_cons.mp hpr with h1 | h1
        · subst h1; exact absurd hrel hrelhd
        · exact ih hrest pr h1 hw hrel

/-- C1: in incremental mode the watermark is the prior snapshot's
`lastUpdated` `T` minus 5 minutes; on a per-repository pull-request stream
sorted by update time descending, every record the fetch retains was
updated at or after the watermark (so one updated at `T - 10` minutes is
excluded), and every stream record updated at or after the watermark
(such as `T + 1` minute) that satisfies the relevance filter is retained. -/
theorem incremental_watermark_fetch (owner repo : String) (s e T : Int)
    (prs : List PullRequest)
    (hsorted : prs.Pairwise (fun a b => b.updated_at ≤ a.updated_at)) :
    (∀ q ∈ fetch_pull_requests owner repo s e (some (watermark T)) prs,
        watermark T ≤ q.updated_at)
    ∧ (∀ pr ∈ prs, watermark T ≤ pr.updated_at → relevantPR s e pr = true →
        setRepo owner repo pr ∈
          fetch_pull_requests owner repo s e (some (watermark T)) prs)
    ∧ watermark T = T - 5 :=
  ⟨fetch_since_lower_bound owner repo s e (watermark T) prs,
   fetch_since_complete owner repo s e (watermark T) prs hsorted,
   rfl⟩

/-- A pull request last updated at `T + 1` and in the event window. -/
def prUpdatedAfter : PullRequest :=
  ⟨1, "alice", "", "", "new work", 50, 101, none, ""⟩

/-- A pull request last updated at `T - 10`, before the `T - 5` watermark. -/
def prUpdatedBefore : PullRequest :=
  ⟨2, "bob", "", "", "old work", 40, 90, none, ""⟩

theorem incremental_watermark_fetch_witness :
    setRepo "o" "r" prUpdatedAfter ∈
      fetch_pull_requests "o" "r" 0 10000 (some (watermark 100))
        [prUpdatedAfter, prUpdatedBefore] :=
  (incremental_watermark_fetch "o" "r" 0 10000 100
      [prUpdatedAfter, prUpdatedBefore] (by decide)).2.1
    prUpdatedAfter (by decide) (by decide) (by decide)

/-- The pull-request relevance predicate as the spec's data model words it:
creation time, or merge time when merged, inside the half-open window
`[start, end)`.  Stated only for comparison against the implemented
`relevantPR`. -/
def relevantPRHalfOpenSpec (start_dt end_dt : Int) (pr : PullRequest) : Bool :=
  (decide (start_dt ≤ pr.created_at) && decide (pr.created_at < end_dt)) ||
  (match pr.merged_at with
   | some m => decide (start_dt ≤ m) && decide (m < end_dt)
   | none => false)

/-- A pull request created exactly at the event's end time, never merged. -/
def prAtWindowEnd : PullRequest :=
  ⟨3, "carol", "", "", "at the boundary", 1440, 1440, none, ""⟩

/-- C5 counterexample: `fetch_pull_requests` retains a pull request whose
creation time equals the end bound and which was never merged, although
both of its timestamps lie outside the half-open window `[start, end)` the
claim appeals to: the implemented filter is inclusive at the end bound. -/
theorem pr_window_halfopen_counterexample :
    fetch_pull_requests "o" "r" 0 1440 none [prAtWindowEnd]
        = [setRepo "o" "r" prAtWindowEnd]
      ∧ relevantPRHalfOpenSpec 0 1440 prAtWindowEnd = false := by
  constructor
  · rfl
  · rfl

/-- C5 (amended): in full mode a fetched pull request is retained iff its
creation time, or its merge time when merged, falls inside the closed
window `[start, end]` (end bound included); in every mode, each retained
record satisfies that closed-window relevance filter. -/
theorem pr_relevance_closed_window (owner repo : String) (s e : Int)
    (prs : List PullRequest) :
    fetch_pull_requests owner repo s e none prs
        = (prs.filter (relevantPR s e)).map (setRepo owner repo)
      ∧ (∀ since q, q ∈ fetch_pull_requests owner repo s e since prs →
          relevantPR s e q = true) := by
  constructor
  · induction prs with
    | nil => rfl
    | cons pr rest ih =>
      by_cases hrel : relevantPR s e pr = true <;>
        simp [fetch_pull_requests, List.filter_cons, hrel, ih]
  · intro since q hq
    induction prs with
    | nil => simp [fetch_pull_requests] at hq
    | cons pr rest ih =>
      simp only [fetch_pull_requests] at hq
      split at hq
      · simp at hq
      · by_cases hrel : relevantPR s e pr = true
        · rw [if_pos hrel] at hq
          rcases List.mem_cons.mp hq with h1 | h1
          · subst h1; rw [relevantPR_setRepo]; exact hrel
          · exact ih h1
        · rw [if_neg hrel] at hq
          exact ih hq

theorem pr_relevance_closed_window_witness :
    relevantPR 0 1440 (setRepo "o" "r" prAtWindowEnd) = true :=
  (pr_relevance_closed_window "o" "r" 0 1440 [prAtWindowEnd]).2 none
    (setRepo "o" "r" prAtWindowEnd) (by decide)

/-- C6 counterexample: with no organization (or a failed/empty organization
listing) the explicit repository list is used as-is, so an explicit list
containing the same identifier twice yields a resolved list in which that
identifier appears twice — the resolved list is not always deduplicated. -/
theorem repo_resolution_counterexample :
    resolveRepositories ["a/b", "a/b"] none = ["a/b", "a/b"]
      ∧ ¬ (resolveRepositories ["a/b", "a/b"] none).Nodup := by
  constructor
  · rfl
  · decide

/-- C6 (amended): when a nonempty organization listing is merged, the
resolved list is the deduplicated union of the explicit list and the
listing; without an organization (or with an empty listing) the explicit
list is used unchanged, duplicates included; and the event is skipped
(no stats) exactly when the resolved list is empty, which with an
organization listing happens iff both inputs are empty. -/
theorem repo_resolution_amended (explicit org : List String) :
    (org ≠ [] →
      ((resolveRepositories explicit (some org)).Nodup
        ∧ ∀ x, x ∈ resolveRepositories explicit (some org) ↔
            x ∈ explicit ∨ x ∈ org))
    ∧ resolveRepositories explicit none = explicit
    ∧ (repoResolutionResult explicit (some org) = none ↔
        resolveRepositories explicit (some org) = [])
    ∧ (resolveRepositories explicit (some org) = [] ↔
        explicit = [] ∧ org = []) := by
  refine ⟨?_, rfl, ?_, ?_⟩
  · intro horg
    have hne : org.isEmpty = false := by
      cases org with
      | nil => exact absurd rfl horg
      | cons a l => rfl
    constructor
    · simp [resolveRepositories, hne, List.nodup_dedup]
    · intro x
      simp [resolveRepositories, hne, List.mem_dedup, List.mem_append]
  · by_cases h : resolveRepositories explicit (some org) = [] <;>
      simp [repoResolutionResult, h]
  · cases org with
    | nil => simp [resolveRepositories]
    | cons a l =>
      simp only [resolveRepositories, List.isEmpty_cons, if_neg Bool.false_ne_true]
      constructor
      · intro h
        have := (List.dedup_eq_nil _).mp h
        simp at this
      · intro h
        rcases h with ⟨h1, h2⟩
        exact absurd h2 (by simp)

theorem repo_resolution_amended_witness :
    (resolveRepositories ["a/b", "a/b"] (some ["c/d"])).Nodup :=
  ((repo_resolution_amended ["a/b", "a/b"] ["c/d"]).1 (by decide)).1

theorem makeRequestAux_count_le (now : Int) (retry_count : Nat)
    (resps : Nat → HttpResp) :
    ∀ remaining attempt,
      (makeRequestAux now retry_count resps remaining attempt).2.1 ≤ remaining := by
  intro remaining
  induction remaining with
  | zero => intro attempt; simp [makeRequestAux]
  | succ r ih =>
    intro attempt
    simp only [makeRequestAux]
    cases h : resps attempt with
    | ok body => cases body <;> simp
    | httpError code hint =>
      by_cases h1 : code = 429 ∨ code = 403
      · simp only [if_pos h1]
        cases hint with
        | none =>
          dsimp only
          have := ih (attempt + 1)
          omega
        | some hd =>
          cases hd with
          | numeric reset =>
            dsimp only
            have := ih (attempt + 1)
            omega
          | malformed => simp
      · simp only [if_neg h1]
        by_cases h2 : code = 404
        · simp [h2]
        · simp only [if_neg h2]
          by_cases h3 : attempt < retry_count - 1
          · simp only [if_pos h3]
            have := ih (attempt + 1)
            omega
          · simp [h3]
    | urlError =>
      by_cases h3 : attempt < retry_count - 1
      · simp only [if_pos h3]
        have := ih (attempt + 1)
        omega
      · simp [h3]

theorem makeRequestAux_some (now : Int) (retry_count : Nat)
    (resps : Nat → HttpResp) :
    ∀ remaining attempt b,
      (makeRequestAux now retry_count resps remaining attempt).1
          = ReqResult.returned (some b) →
      ∃ i, attempt ≤ i ∧ i < attempt + remaining ∧ resps i = .ok (.parsed b) := by
  intro remaining
  induction remaining with
  | zero => intro attempt b hb; simp [makeRequestAux] at hb
  | succ r ih =>
    intro attempt b hb
    simp only [makeRequestAux] at hb
    cases h : resps attempt with
    | ok body =>
      cases body with
      | parsed body0 =>
        rw [h] at hb
        simp at hb
        exact ⟨attempt, le_refl _, by omega, by rw [h, hb]⟩
      | unparsable =>
        rw [h] at hb
        simp at hb
    | httpError code hint =>
      rw [h] at hb
      by_cases h1 : code = 429 ∨ code = 403
      · simp only [if_pos h1] at hb
        cases hint with
        | none =>
          obtain ⟨i, hi1, hi2, hi3⟩ := ih (attempt + 1) b hb
          exact ⟨i, by omega, by omega, hi3⟩
        | some hd =>
          cases hd with
          | numeric reset =>
            obtain ⟨i, hi1, hi2, hi3⟩ := ih (attempt + 1) b hb
            exact ⟨i, by omega, by omega, hi3⟩
          | malformed => simp at hb
      · simp only [if_neg h1] at hb
        by_cases h2 : code = 404
        · simp [h2] at hb
        · simp only [if_neg h2] at hb
          by_cases h3 : attempt < retry_count - 1
          · simp only [if_pos h3] at hb
            obtain ⟨i, hi1, hi2, hi3⟩ := ih (attempt + 1) b hb
            exact ⟨i, by omega, by omega, hi3⟩
          · simp [h3] at hb
    | urlError =>
      rw [h] at hb
      by_cases h3 : attempt < retry_count - 1
      · simp only [if_pos h3] at hb
        obtain ⟨i, hi1, hi2, hi3⟩ := ih (attempt + 1) b hb
        exact ⟨i, by omega, by omega, hi3⟩
      · simp [h3] at hb

theorem makeRequestAux_none_of_retryable (now : Int) (retry_count : Nat)
    (resps : Nat → HttpResp) (hall : ∀ i, retryableResp (resps i) = true) :
    ∀ remaining attempt,
      (makeRequestAux now retry_count resps remaining attempt).1
        = ReqResult.returned none := by
  intro remaining
  induction remaining with
  | zero => intro attempt; simp [makeRequestAux]
  | succ r ih =>
    intro attempt
    simp only [makeRequestAux]
    cases h : resps attempt with
    | ok body =>
      have := hall attempt
      rw [h] at this
      simp [retryableResp] at this
    | httpError code hint =>
      by_cases h1 : code = 429 ∨ code = 403
      · simp only [if_pos h1]
        cases hint with
        | none => exact ih (attempt + 1)
        | some hd =>
          cases hd with
          | numeric reset => exact ih (attempt + 1)
          | malformed =>
            have := hall attempt
            rw [h] at this
            simp [retryableResp, h1] at this
      · have h404 : code ≠ 404 := by
          have := hall attempt
          rw [h] at this
          simpa [retryableResp, h1] using this
        simp only [if_neg h1, if_neg h404]
        by_cases h3 : attempt < retry_count - 1
        · simp only [if_pos h3]
          exact ih (attempt + 1)
        · simp [h3]
    | urlError =>
      by_cases h3 : attempt < retry_count - 1
      · simp only [if_pos h3]
        exact ih (attempt + 1)
      · simp [h3]

theorem makeRequestAux_no_raise (now : Int) (retry_count : Nat)
    (resps : Nat → HttpResp) (hall : ∀ i, nonRaisingResp (resps i) = true) :
    ∀ remaining attempt,
      (makeRequestAux now retry_count resps remaining attempt).1
        ≠ ReqResult.raised := by
  intro remaining
  induction remaining with
  | zero => intro attempt; simp [makeRequestAux]
  | succ r ih =>
    intro attempt
    simp only [makeRequestAux]
    cases h : resps attempt with
    | ok body =>
      cases body with
      | parsed body0 => simp
      | unparsable =>
        have := hall attempt
        rw [h] at this
        simp [nonRaisingResp] at this
    | httpError code hint =>
      by_cases h1 : code = 429 ∨ code = 403
      · simp only [if_pos h1]
        cases hint with
        | none => exact ih (attempt + 1)
        | some hd =>
          cases hd with
          | numeric reset => exact ih (attempt + 1)
          | malformed =>
            have := hall attempt
            rw [h] at this
            simp [nonRaisingResp, h1] at this
      · simp only [if_neg h1]
        by_cases h2 : code = 404
        · simp [h2]
        · simp only [if_neg h2]
          by_cases h3 : attempt < retry_count - 1
          · simp only [if_pos h3]
            exact ih (attempt + 1)
          · simp [h3]
    | urlError =>
      by_cases h3 : attempt < retry_count - 1
      · simp only [if_pos h3]
        exact ih (attempt + 1)
      · simp [h3]

theorem makeRequestAux_plain_linear (now : Int) (retry_count : Nat)
    (resps : Nat → HttpResp) (hall : ∀ i, plainErrorResp (resps i) = true) :
    ∀ remaining attempt, attempt + remaining = retry_count → 1 ≤ remaining →
      makeRequestAux now retry_count resps remaining attempt =
        (.returned none, remaining,
         (List.range (remaining - 1)).map
           (fun i : Nat => ((5 * (attempt + i + 1) : Nat) : Int))) := by
  intro remaining
  induction remaining with
  | zero => intro attempt h1 h2; omega
  | succ r ih =>
    intro attempt hsum hone
    have hplain := hall attempt
    simp only [makeRequestAux]
    cases h : resps attempt with
    | ok body => rw [h] at hplain; simp [plainErrorResp] at hplain
    | httpError code hint =>
      rw [h] at hplain
      simp only [plainErrorResp, decide_eq_true_eq] at hplain
      obtain ⟨h404, h429, h403⟩ := hplain
      have h1 : ¬ (code = 429 ∨ code = 403) := by tauto
      simp only [if_neg h1, if_neg h404]
      cases r with
      | zero =>
        have h3 : ¬ attempt < retry_count - 1 := by omega
        simp [h3]
      | succ r0 =>
        have h3 : attempt < retry_count - 1 := by omega
        simp only [if_pos h3]
        rw [ih (attempt + 1) (by omega) (by omega)]
        simp only [Nat.add_sub_cancel]
        rw [List.range_succ_eq_map, List.map_cons, List.map_map]
        simp only [Prod.mk.injEq, List.cons.injEq]
        refine ⟨trivial, trivial, ?_, ?_⟩
        · push_cast; ring
        · refine List.map_congr_left ?_
          intro i hi
          simp only [Function.comp]
          push_cast; ring
    | urlError =>
      cases r with
      | zero =>
        have h3 : ¬ attempt < retry_count - 1 := by omega
        simp [h3]
      | succ r0 =>
        have h3 : attempt < retry_count - 1 := by omega
        simp only [if_pos h3]
        rw [ih (attempt + 1) (by omega) (by omega)]
        simp only [Nat.add_sub_cancel]
        rw [List.range_succ_eq_map, List.map_cons, List.map_map]
        simp only [Prod.mk.injEq, List.cons.injEq]
        refine ⟨trivial, trivial, ?_, ?_⟩
        · push_cast; ring
        · refine List.map_congr_left ?_
          intro i hi
          simp only [Function.comp]
          push_cast; ring

/-- C8 counterexample: `make_request` can raise to its caller.  On a 2xx
response, `json.loads(response.read().decode("utf-8"))` runs inside a
`try` whose handlers catch only `HTTPError` and `URLError`, so a body that
fails to read, decode or parse propagates an exception out of
`make_request`; likewise `int(reset)` on a non-numeric `X-RateLimit-Reset`
header of a 429 response raises an uncaught `ValueError`. -/
theorem make_request_raises_counterexample :
    (make_request 0 3 (fun _ => .ok .unparsable)).1 = ReqResult.raised
    ∧ (make_request 0 3 (fun _ => .httpError 429 (some .malformed))).1
        = ReqResult.raised := by
  constructor <;> rfl

/-- C8 (amended): `make_request` issues at most `retry_count` requests; a
returned body always comes from a successfully parsed 2xx response within
the attempt budget; a 404 as first response yields `None` after exactly
one request, no retry and no sleep; if every response is a retryable error
the bounded attempts are exhausted and `None` is returned; if every
response is a plain (non-rate-limit) error, all `retry_count` attempts are
used and the sleeps are the linear backoff `5 * (attempt + 1)` for each
non-final attempt; and the function never raises to its caller provided no
response is one of the two uncaught-exception shapes (a 2xx body that
fails to read/decode/parse, or a malformed `X-RateLimit-Reset` header on a
rate-limited response). -/
theorem make_request_contract (now : Int) (retry_count : Nat)
    (resps : Nat → HttpResp) :
    (make_request now retry_count resps).2.1 ≤ retry_count
    ∧ (∀ b, (make_request now retry_count resps).1 = ReqResult.returned (some b) →
        ∃ i, i < retry_count ∧ resps i = .ok (.parsed b))
    ∧ (∀ hint, 0 < retry_count → resps 0 = .httpError 404 hint →
        make_request now retry_count resps = (.returned none, 1, []))
    ∧ ((∀ i, retryableResp (resps i) = true) →
        (make_request now retry_count resps).1 = ReqResult.returned none)
    ∧ ((∀ i, plainErrorResp (resps i) = true) → 1 ≤ retry_count →
        make_request now retry_count resps =
          (.returned none, retry_count,
           (List.range (retry_count - 1)).map
             (fun i : Nat => ((5 * (i + 1) : Nat) : Int))))
    ∧ ((∀ i, nonRaisingResp (resps i) = true) →
        (make_request now retry_count resps).1 ≠ ReqResult.raised) := by
  refine ⟨makeRequestAux_count_le now retry_count resps retry_count 0,
    ?_, ?_, ?_, ?_, ?_⟩
  · intro b hb
    obtain ⟨i, hi1, hi2, hi3⟩ :=
      makeRequestAux_some now retry_count resps retry_count 0 b hb
    exact ⟨i, by omega, hi3⟩
  · intro hint hpos h404
    obtain ⟨r, hr⟩ := Nat.exists_eq_succ_of_ne_zero (Nat.pos_iff_ne_zero.mp hpos)
    rw [make_request, hr]
    simp [makeRequestAux, h404]
  · intro hall
    exact makeRequestAux_none_of_retryable now retry_count resps hall retry_count 0
  · intro hall hone
    have := makeRequestAux_plain_linear now retry_count resps hall retry_count 0
      (by omega) hone
    rw [make_request, this]
    simp only [Prod.mk.injEq]
    refine ⟨trivial, trivial, List.map_congr_left ?_⟩
    intro i hi
    norm_num
  · intro hall
    exact makeRequestAux_no_raise now retry_count resps hall retry_count 0

theorem make_request_contract_witness :
    make_request 0 3 (fun _ => .httpError 404 none) = (.returned none, 1, []) :=
  (make_request_contract 0 3 (fun _ => .httpError 404 none)).2.2.1 none
    (by decide) rfl


theorem runOrgResolutions_hit (api : String → List String) (orgs : List String)
    (org : String) (v : List String) :
    ∀ st : OrgRunState, lookupKey st.cache org = some v →
      (runOrgResolutions api orgs st).fetchLog.count org = st.fetchLog.count org
      ∧ (runOrgResolutions api orgs st).writeLog.count org = st.writeLog.count org
      ∧ lookupKey (runOrgResolutions api orgs st).cache org = some v := by
  induction orgs with
  | nil => intro st h; exact ⟨rfl, rfl, h⟩
  | cons o rest ih =>
    intro st h
    have hstep : runOrgResolutions api (o :: rest) st
        = runOrgResolutions api rest (resolveOrg api st o).2 := rfl
    rw [hstep]
    by_cases ho : o = org
    · subst ho
      have : (resolveOrg api st o).2 = st := by simp [resolveOrg, h]
      rw [this]
      exact ih st h
    · cases hlo : lookupKey st.cache o with
      | some repos =>
        have : (resolveOrg api st o).2 = st := by simp [resolveOrg, hlo]
        rw [this]
        exact ih st h
      | none =>
        have hcount : ∀ l : List String, (l ++ [o]).count org = l.count org := by
          intro l
          simp [List.count_append, List.count_singleton]
          intro hc
          exact absurd hc ho
        by_cases hf : (api o).isEmpty
        · have hst : (resolveOrg api st o).2
              = ⟨st.cache, st.fetchLog ++ [o], st.writeLog⟩ := by
            simp [resolveOrg, hlo, hf]
          rw [hst]
          obtain ⟨h1, h2, h3⟩ := ih ⟨st.cache, st.fetchLog ++ [o], st.writeLog⟩ h
          exact ⟨by rw [h1, hcount], by rw [h2], h3⟩
        · have hst : (resolveOrg api st o).2
              = ⟨st.cache ++ [(o, api o)], st.fetchLog ++ [o], st.writeLog ++ [o]⟩ := by
            simp [resolveOrg, hlo, hf]
          rw [hst]
          have hl : lookupKey (st.cache ++ [(o, api o)]) org = some v :=
            lookupKey_append_some h
          obtain ⟨h1, h2, h3⟩ :=
            ih ⟨st.cache ++ [(o, api o)], st.fetchLog ++ [o], st.writeLog ++ [o]⟩ hl
          exact ⟨by rw [h1, hcount], by rw [h2, hcount], h3⟩

theorem runOrgResolutions_miss_fetch (api : String → List String)
    (orgs : List String) (org : String) (hne : api org ≠ []) :
    ∀ st : OrgRunState, lookupKey st.cache org = none →
      (runOrgResolutions api orgs st).fetchLog.count org
        ≤ st.fetchLog.count org + 1 := by
  induction orgs with
  | nil => intro st h; simp [runOrgResolutions]
  | cons o rest ih =>
    intro st h
    have hstep : runOrgResolutions api (o :: rest) st
        = runOrgResolutions api rest (resolveOrg api st o).2 := rfl
    rw [hstep]
    by_cases ho : o = org
    · subst ho
      have hfe : (api o).isEmpty = false := by
        cases hc : api o with
        | nil => exact absurd hc hne
        | cons a l => rfl
      have hst : (resolveOrg api st o).2
          = ⟨st.cache ++ [(o, api o)], st.fetchLog ++ [o], st.writeLog ++ [o]⟩ := by
        simp [resolveOrg, h, hfe]
      rw [hst]
      have hl : lookupKey (st.cache ++ [(o, api o)]) o = some (api o) :=
        lookupKey_append_single_self _ _ _ h
      have h1 := (runOrgResolutions_hit api rest o (api o)
        ⟨st.cache ++ [(o, api o)], st.fetchLog ++ [o], st.writeLog ++ [o]⟩ hl).1
      rw [h1]
      simp [List.count_append, List.count_singleton]
    · have hcount : ∀ l : List String, (l ++ [o]).count org = l.count org := by
        intro l
        simp [List.count_append, List.count_singleton]
        intro hc
        exact absurd hc ho
      cases hlo : lookupKey st.cache o with
      | some repos =>
        have hst : (resolveOrg api st o).2 = st := by simp [resolveOrg, hlo]
        rw [hst]
        exact ih st h
      | none =>
        by_cases hf : (api o).isEmpty
        · have hst : (resolveOrg api st o).2
              = ⟨st.cache, st.fetchLog ++ [o], st.writeLog⟩ := by
            simp [resolveOrg, hlo, hf]
          rw [hst]
          have := ih ⟨st.cache, st.fetchLog ++ [o], st.writeLog⟩ h
          simp only at this
          rw [hcount] at this
          exact this
        · have hst : (resolveOrg api st o).2
              = ⟨st.cache ++ [(o, api o)], st.fetchLog ++ [o], st.writeLog ++ [o]⟩ := by
            simp [resolveOrg, hlo, hf]
          rw [hst]
          have hl : lookupKey (st.cache ++ [(o, api o)]) org = none := by
            rw [lookupKey_append_single_ne _ _ _ _ ho, h]
          have := ih ⟨st.cache ++ [(o, api o)], st.fetchLog ++ [o], st.writeLog ++ [o]⟩ hl
          simp only at this
          rw [hcount] at this
          exact this

theorem runOrgResolutions_miss_write (api : String → List String)
    (orgs : List String) (org : String) :
    ∀ st : OrgRunState, lookupKey st.cache org = none →
      (runOrgResolutions api orgs st).writeLog.count org
        ≤ st.writeLog.count org + 1 := by
  induction orgs with
  | nil => intro st h; simp [runOrgResolutions]
  | cons o rest ih =>
    intro st h
    have hstep : runOrgResolutions api (o :: rest) st
        = runOrgResolutions api rest (resolveOrg api st o).2 := rfl
    rw [hstep]
    have hcountne : o ≠ org → ∀ l : List String, (l ++ [o]).count org = l.count org := by
      intro hno l
      simp [List.count_append, List.count_singleton]
      intro hc
      exact absurd hc hno
    by_cases ho : o = org
    · subst ho
      by_cases hf : (api o).isEmpty
      · have hst : (resolveOrg api st o).2
            = ⟨st.cache, st.fetchLog ++ [o], st.writeLog⟩ := by
          simp [resolveOrg, h, hf]
        rw [hst]
        exact ih ⟨st.cache, st.fetchLog ++ [o], st.writeLog⟩ h
      · have hst : (resolveOrg api st o).2
            = ⟨st.cache ++ [(o, api o)], st.fetchLog ++ [o], st.writeLog ++ [o]⟩ := by
          simp [resolveOrg, h, hf]
        rw [hst]
        have hl : lookupKey (st.cache ++ [(o, api o)]) o = some (api o) :=
          lookupKey_append_single_self _ _ _ h
        have h2 := (runOrgResolutions_hit api rest o (api o)
          ⟨st.cache ++ [(o, api o)], st.fetchLog ++ [o], st.writeLog ++ [o]⟩ hl).2.1
        rw [h2]
        simp [List.count_append, List.count_singleton]
    · cases hlo : lookupKey st.cache o with
      | some repos =>
        have hst : (resolveOrg api st o).2 = st := by simp [resolveOrg, hlo]
        rw [hst]
        exact ih st h
      | none =>
        by_cases hf : (api o).isEmpty
        · have hst : (resolveOrg api st o).2
              = ⟨st.cache, st.fetchLog ++ [o], st.writeLog⟩ := by
            simp [resolveOrg, hlo, hf]
          rw [hst]
          exact ih ⟨st.cache, st.fetchLog ++ [o], st.writeLog⟩ h
        · have hst : (resolveOrg api st o).2
              = ⟨st.cache ++ [(o, api o)], st.fetchLog ++ [o], st.writeLog ++ [o]⟩ := by
            simp [resolveOrg, hlo, hf]
          rw [hst]
          have hl : lookupKey (st.cache ++ [(o, api o)]) org = none := by
            rw [lookupKey_append_single_ne _ _ _ _ ho, h]
          have := ih ⟨st.cache ++ [(o, api o)], st.fetchLog ++ [o], st.writeLog ++ [o]⟩ hl
          simp only at this
          rw [hcountne ho] at this
          exact this

/-- C7 counterexample: when the organization listing fetch returns an empty
(or failed) result, nothing is cached, so a second event referencing the
same organization fetches it again — the listing is fetched twice in one
run, violating the at-most-once claim. -/
theorem org_cache_counterexample :
    (runOrgResolutions (fun _ => []) ["o", "o"] ⟨[], [], []⟩).fetchLog.count "o"
      = 2 := by decide

/-- C7 (amended): within one run, an organization whose listing fetch
succeeds with a nonempty result is fetched from the API at most once,
however many events reference it (an empty or failed listing is not cached
and may be re-fetched); the cache entry for any organization is written at
most once per run; and once a cache entry exists it is only read
thereafter — further events leave its value unchanged. -/
theorem org_cache_amended (api : String → List String) (orgs : List String)
    (org : String) :
    (api org ≠ [] →
      (runOrgResolutions api orgs ⟨[], [], []⟩).fetchLog.count org ≤ 1)
    ∧ (runOrgResolutions api orgs ⟨[], [], []⟩).writeLog.count org ≤ 1
    ∧ (∀ st : OrgRunState, ∀ v, lookupKey st.cache org = some v →
        lookupKey (runOrgResolutions api orgs st).cache org = some v) := by
  refine ⟨?_, ?_, ?_⟩
  · intro hne
    have := runOrgResolutions_miss_fetch api orgs org hne ⟨[], [], []⟩ rfl
    simpa using this
  · have := runOrgResolutions_miss_write api orgs org ⟨[], [], []⟩ rfl
    simpa using this
  · intro st v hv
    exact (runOrgResolutions_hit api orgs org v st hv).2.2

theorem org_cache_amended_witness :
    (runOrgResolutions (fun _ => ["x/y"]) ["o", "o"] ⟨[], [], []⟩).fetchLog.count "o"
      ≤ 1 :=
  (org_cache_amended (fun _ => ["x/y"]) ["o", "o"] "o").1 (by decide)

theorem eventStep_visited (now : Int) (outcome : EventCfg → POutcome)
    (st : RunResult) (ev : EventCfg) :
    (eventStep now outcome st ev).visited = st.visited ++ [ev.slug] := by
  simp only [eventStep]
  split
  · rfl
  · cases outcome ev <;> rfl

theorem eventStep_errors_superset (now : Int) (outcome : EventCfg → POutcome)
    (st : RunResult) (ev : EventCfg) (x : String) (hx : x ∈ st.errors) :
    x ∈ (eventStep now outcome st ev).errors := by
  simp only [eventStep]
  split
  · exact hx
  · cases outcome ev with
    | ok d => exact hx
    | noRepos => exact hx
    | raises => exact List.mem_append_left _ hx

theorem eventStep_saved_superset (now : Int) (outcome : EventCfg → POutcome)
    (st : RunResult) (ev : EventCfg) (x : String) (hx : x ∈ st.saved) :
    x ∈ (eventStep now outcome st ev).saved := by
  simp only [eventStep]
  split
  · exact hx
  · cases outcome ev with
    | ok d => exact List.mem_append_left _ hx
    | noRepos => exact hx
    | raises => exact hx

theorem eventStep_raises_mem (now : Int) (outcome : EventCfg → POutcome)
    (st : RunResult) (ev : EventCfg) (ho : outcome ev = .raises)
    (hg : now ≤ ev.endTime ∨ ev.hasDataFile = false) :
    ev.slug ∈ (eventStep now outcome st ev).errors := by
  simp only [eventStep]
  split
  · rename_i h
    obtain ⟨h1, h2⟩ := h
    simp [is_hackathon_active] at h1
    rcases hg with hg | hg
    · omega
    · rw [hg] at h2; exact absurd h2 (by simp)
  · rw [ho]
    simp

theorem eventStep_ok_mem (now : Int) (outcome : EventCfg → POutcome)
    (st : RunResult) (ev : EventCfg) (d : Nat) (ho : outcome ev = .ok d)
    (hg : now ≤ ev.endTime ∨ ev.hasDataFile = false) :
    ev.slug ∈ (eventStep now outcome st ev).saved := by
  simp only [eventStep]
  split
  · rename_i h
    obtain ⟨h1, h2⟩ := h
    simp [is_hackathon_active] at h1
    rcases hg with hg | hg
    · omega
    · rw [hg] at h2; exact absurd h2 (by simp)
  · rw [ho]
    simp

theorem eventLoop_visited (now : Int) (outcome : EventCfg → POutcome) :
    ∀ (evs : List EventCfg) (st : RunResult),
      (evs.foldl (eventStep now outcome) st).visited
        = st.visited ++ evs.map (fun e => e.slug) := by
  intro evs
  induction evs with
  | nil => intro st; simp
  | cons e rest ih =>
    intro st
    rw [List.foldl_cons, ih, eventStep_visited]
    simp

theorem eventLoop_errors_mono (now : Int) (outcome : EventCfg → POutcome) :
    ∀ (evs : List EventCfg) (st : RunResult) (x : String), x ∈ st.errors →
      x ∈ (evs.foldl (eventStep now outcome) st).errors := by
  intro evs
  induction evs with
  | nil => intro st x hx; exact hx
  | cons e rest ih =>
    intro st x hx
    exact ih _ x (eventStep_errors_superset now outcome st e x hx)

theorem eventLoop_saved_mono (now : Int) (outcome : EventCfg → POutcome) :
    ∀ (evs : List EventCfg) (st : RunResult) (x : String), x ∈ st.saved →
      x ∈ (evs.foldl (eventStep now outcome) st).saved := by
  intro evs
  induction evs with
  | nil => intro st x hx; exact hx
  | cons e rest ih =>
    intro st x hx
    exact ih _ x (eventStep_saved_superset now outcome st e x hx)

theorem eventLoop_raises_mem (now : Int) (outcome : EventCfg → POutcome) :
    ∀ (evs : List EventCfg) (st : RunResult) (ev : EventCfg), ev ∈ evs →
      outcome ev = .raises → (now ≤ ev.endTime ∨ ev.hasDataFile = false) →
      ev.slug ∈ (evs.foldl (eventStep now outcome) st).errors := by
  intro evs
  induction evs with
  | nil => intro st ev hev; simp at hev
  | cons e rest ih =>
    intro st ev hev ho hg
    rcases List.mem_cons.mp hev with h1 | h1
    · subst h1
      exact eventLoop_errors_mono now outcome rest _ ev.slug
        (eventStep_raises_mem now outcome st ev ho hg)
    · exact ih _ ev h1 ho hg

theorem eventLoop_ok_mem (now : Int) (outcome : EventCfg → POutcome) :
    ∀ (evs : List EventCfg) (st : RunResult) (ev : EventCfg), ev ∈ evs →
      (∃ d, outcome ev = .ok d) → (now ≤ ev.endTime ∨ ev.hasDataFile = false) →
      ev.slug ∈ (evs.foldl (eventStep now outcome) st).saved := by
  intro evs
  induction evs with
  | nil => intro st ev hev; simp at hev
  | cons e rest ih =>
    intro st ev hev ho hg
    obtain ⟨d, hd⟩ := ho
    rcases List.mem_cons.mp hev with h1 | h1
    · subst h1
      exact eventLoop_saved_mono now outcome rest _ ev.slug
        (eventStep_ok_mem now outcome st ev d hd hg)
    · exact ih _ ev h1 ⟨d, hd⟩ hg

/-- C9: for a present configuration with at least one event, the run
produces a result in which the global summary is written, every event is
visited by the loop (no event's failure aborts the run), every event whose
processing raises (and which is not gated out as ended-with-data) is
logged to the error list, and every event that yields a document is still
saved, independently of failures of other events. -/
theorem per_event_failure_isolation (now : Int) (outcome : EventCfg → POutcome)
    (events : List EventCfg) (hne : events ≠ []) :
    ∃ r : RunResult, runMain now outcome true events = some r
      ∧ r.summaryWritten = true
      ∧ r.visited = events.map (fun e => e.slug)
      ∧ (∀ ev ∈ events, outcome ev = .raises →
          (now ≤ ev.endTime ∨ ev.hasDataFile = false) → ev.slug ∈ r.errors)
      ∧ (∀ ev ∈ events, (∃ d, outcome ev = .ok d) →
          (now ≤ ev.endTime ∨ ev.hasDataFile = false) → ev.slug ∈ r.saved) := by
  have hns : events.isEmpty = false := by
    cases events with
    | nil => exact absurd rfl hne
    | cons e l => rfl
  refine ⟨{ events.foldl (eventStep now outcome) ⟨[], [], [], false⟩ with
            summaryWritten := true }, ?_, rfl, ?_, ?_, ?_⟩
  · simp [runMain, hns]
  · simpa using eventLoop_visited now outcome events ⟨[], [], [], false⟩
  · intro ev hev ho hg
    exact eventLoop_raises_mem now outcome events ⟨[], [], [], false⟩ ev hev ho hg
  · intro ev hev ho hg
    exact eventLoop_ok_mem now outcome events ⟨[], [], [], false⟩ ev hev ho hg

/-- An event whose processing raises, used to witness failure isolation. -/
def evRaisingW : EventCfg := ⟨"a", 10, false⟩

/-- A later event that succeeds despite the previous failure. -/
def evOkW : EventCfg := ⟨"b", 10, false⟩

/-- Per-event outcomes for the witness run: "a" raises, the rest succeed. -/
def outcomeW : EventCfg → POutcome :=
  fun e => if e.slug = "a" then .raises else .ok 1

theorem per_event_failure_isolation_witness :
    ∃ r : RunResult, runMain 0 outcomeW true [evRaisingW, evOkW] = some r
      ∧ r.summaryWritten = true
      ∧ r.visited = [evRaisingW, evOkW].map (fun e => e.slug)
      ∧ (∀ ev ∈ [evRaisingW, evOkW], outcomeW ev = .raises →
          ((0 : Int) ≤ ev.endTime ∨ ev.hasDataFile = false) → ev.slug ∈ r.errors)
      ∧ (∀ ev ∈ [evRaisingW, evOkW], (∃ d, outcomeW ev = .ok d) →
          ((0 : Int) ≤ ev.endTime ∨ ev.hasDataFile = false) → ev.slug ∈ r.saved) :=
  per_event_failure_isolation 0 outcomeW [evRaisingW, evOkW] (by decide)

theorem dailyInit_mem_fst (startDay endDay d : Int) :
    d ∈ (dailyInit startDay endDay).map Prod.fst ↔
      startDay ≤ d ∧ d ≤ endDay := by
  simp only [dailyInit, List.map_map, List.mem_map, List.mem_range,
    Function.comp]
  constructor
  · rintro ⟨i, hi, rfl⟩
    omega
  · rintro ⟨h1, h2⟩
    refine ⟨(d - startDay).toNat, by omega, by omega⟩

theorem dailyInit_fst_nodup (startDay endDay : Int) :
    ((dailyInit startDay endDay).map Prod.fst).Nodup := by
  simp only [dailyInit, List.map_map, Function.comp]
  refine List.Nodup.map ?_ (List.nodup_range _)
  intro a b h
  have h2 : startDay + (a : Int) = startDay + (b : Int) := h
  omega

theorem dailyInit_zero (startDay endDay : Int) :
    ∀ x ∈ dailyInit startDay endDay, x.2 = Bucket.mk 0 0 := by
  intro x hx
  simp only [dailyInit, List.mem_map] at hx
  obtain ⟨i, hi, rfl⟩ := hx
  rfl

theorem processPR_daily_fst (s e : Int) (st : AggState) (pr : PullRequest) :
    ((processPR s e st pr).daily_activity).map Prod.fst
      = st.daily_activity.map Prod.fst := by
  simp only [processPR]
  cases pr.merged_at <;>
    by_cases h : (decide (s ≤ pr.created_at) && decide (pr.created_at ≤ e)) = true <;>
    simp [h, adjust_map_fst]

theorem processReview_daily (s e : Int) (st : AggState) (r : Review) :
    (processReview s e st r).daily_activity = st.daily_activity := by
  unfold processReview
  dsimp only
  repeat' split
  all_goals rfl

theorem processIssue_daily (st : AggState) (issue : Issue) :
    (processIssue st issue).daily_activity = st.daily_activity := rfl

theorem aggregate_daily_fst (prs : List PullRequest) (all_reviews : List Review)
    (issues : List Issue) (s e : Int) (repos : List String) :
    (aggregate prs all_reviews issues s e repos).daily_activity.map Prod.fst
      = (dailyInit (dayOf s) (dayOf e)).map Prod.fst := by
  unfold aggregate
  have hpr : ∀ (l : List PullRequest) (st : AggState),
      (l.foldl (processPR s e) st).daily_activity.map Prod.fst
        = st.daily_activity.map Prod.fst := by
    intro l
    induction l with
    | nil => intro st; rfl
    | cons p rest ih =>
      intro st
      rw [List.foldl_cons, ih, processPR_daily_fst]
  have hrv : ∀ (l : List Review) (st : AggState),
      (l.foldl (processReview s e) st).daily_activity = st.daily_activity := by
    intro l
    induction l with
    | nil => intro st; rfl
    | cons p rest ih =>
      intro st
      rw [List.foldl_cons, ih, processReview_daily]
  have his : ∀ (l : List Issue) (st : AggState),
      (l.foldl processIssue st).daily_activity = st.daily_activity := by
    intro l
    induction l with
    | nil => intro st; rfl
    | cons p rest ih =>
      intro st
      rw [List.foldl_cons, ih, processIssue_daily]
  rw [his, hrv, hpr]

/-- C2: for every event window and input record set, the `dailyActivity`
map has exactly one entry per calendar date from the window-start date to
the window-end date inclusive (no gaps, no duplicates); its key set equals
that of the pre-populated map, whose every bucket starts at zero counts
before any record is applied. -/
theorem daily_activity_complete (prs : List PullRequest) (all_reviews : List Review)
    (issues : List Issue) (s e : Int) (repos : List String) :
    (∀ d : Int,
        d ∈ (process_hackathon_stats prs all_reviews issues s e repos).dailyActivity.map Prod.fst
          ↔ dayOf s ≤ d ∧ d ≤ dayOf e)
    ∧ ((process_hackathon_stats prs all_reviews issues s e repos).dailyActivity.map Prod.fst).Nodup
    ∧ (∀ x ∈ dailyInit (dayOf s) (dayOf e), x.2 = Bucket.mk 0 0)
    ∧ (process_hackathon_stats prs all_reviews issues s e repos).dailyActivity.map Prod.fst
        = (dailyInit (dayOf s) (dayOf e)).map Prod.fst := by
  have hkeys : (process_hackathon_stats prs all_reviews issues s e repos).dailyActivity.map Prod.fst
      = (dailyInit (dayOf s) (dayOf e)).map Prod.fst :=
    aggregate_daily_fst prs all_reviews issues s e repos
  refine ⟨?_, ?_, dailyInit_zero _ _, hkeys⟩
  · intro d
    rw [hkeys]
    exact dailyInit_mem_fst _ _ d
  · rw [hkeys]
    exact dailyInit_fst_nodup _ _

theorem daily_activity_complete_witness :
    (0 : Int) ∈ (process_hackathon_stats [] [] [] 0 2880 []).dailyActivity.map Prod.fst :=
  (daily_activity_complete [] [] [] 0 2880 []).1 0 |>.mpr (by decide)

theorem stats_leaderboard_eq (prs : List PullRequest) (all_reviews : List Review)
    (issues : List Issue) (s e : Int) (repos : List String) :
    (process_hackathon_stats prs all_reviews issues s e repos).leaderboard
      = sortDescBy (fun p => p.mergedCount)
          (((aggregate prs all_reviews issues s e repos).participants.map Prod.snd).filter
            (fun p => decide (0 < p.mergedCount))) := rfl

theorem stats_review_leaderboard_eq (prs : List PullRequest)
    (all_reviews : List Review) (issues : List Issue) (s e : Int)
    (repos : List String) :
    (process_hackathon_stats prs all_reviews issues s e repos).reviewLeaderboard
      = sortDescBy (fun p => p.reviewCount)
          (((aggregate prs all_reviews issues s e repos).participants.map Prod.snd).filter
            (fun p => decide (0 < p.reviewCount))) := rfl

/-- C4: each leaderboard holds exactly the participants with a strictly
positive count in its dimension; it is sorted descending by that count, so
every earlier entry's count is at least every later entry's; and filtering
a leaderboard to any fixed count value returns those entries in the
participant map's first-seen order — ties keep insertion order (the sort
is stable). -/
theorem leaderboards_sorted (prs : List PullRequest) (all_reviews : List Review)
    (issues : List Issue) (s e : Int) (repos : List String) :
    (∀ p : Participant,
        p ∈ (process_hackathon_stats prs all_reviews issues s e repos).leaderboard
          ↔ p ∈ (aggregate prs all_reviews issues s e repos).participants.map Prod.snd
              ∧ 0 < p.mergedCount)
    ∧ (process_hackathon_stats prs all_reviews issues s e repos).leaderboard.Pairwise
        (fun a b => b.mergedCount ≤ a.mergedCount)
    ∧ (∀ c : Nat,
        (process_hackathon_stats prs all_reviews issues s e repos).leaderboard.filter
            (fun p => p.mergedCount == c)
          = (((aggregate prs all_reviews issues s e repos).participants.map Prod.snd).filter
              (fun p => decide (0 < p.mergedCount))).filter
              (fun p => p.mergedCount == c))
    ∧ (∀ p : Participant,
        p ∈ (process_hackathon_stats prs all_reviews issues s e repos).reviewLeaderboard
          ↔ p ∈ (aggregate prs all_reviews issues s e repos).participants.map Prod.snd
              ∧ 0 < p.reviewCount)
    ∧ (process_hackathon_stats prs all_reviews issues s e repos).reviewLeaderboard.Pairwise
        (fun a b => b.reviewCount ≤ a.reviewCount)
    ∧ (∀ c : Nat,
        (process_hackathon_stats prs all_reviews issues s e repos).reviewLeaderboard.filter
            (fun p => p.reviewCount == c)
          = (((aggregate prs all_reviews issues s e repos).participants.map Prod.snd).filter
              (fun p => decide (0 < p.reviewCount))).filter
              (fun p => p.reviewCount == c)) := by
  refine ⟨?_, ?_, ?_, ?_, ?_, ?_⟩
  · intro p
    rw [stats_leaderboard_eq, sortDescBy_mem, List.mem_filter]
    simp
  · rw [stats_leaderboard_eq]
    exact sortDescBy_pairwise _ _
  · intro c
    rw [stats_leaderboard_eq]
    exact sortDescBy_filter (fun p : Participant => p.mergedCount) _ c
  · intro p
    rw [stats_review_leaderboard_eq, sortDescBy_mem, List.mem_filter]
    simp
  · rw [stats_review_leaderboard_eq]
    exact sortDescBy_pairwise _ _
  · intro c
    rw [stats_review_leaderboard_eq]
    exact sortDescBy_filter (fun p : Participant => p.reviewCount) _ c

theorem leaderboards_sorted_witness :
    (process_hackathon_stats
        [⟨1, "alice", "", "", "t", 100, 100, some 200, "o/r"⟩,
         ⟨2, "bob", "", "", "t2", 150, 150, some 250, "o/r"⟩]
        [] [] 0 2880 []).leaderboard.Pairwise
      (fun a b => b.mergedCount ≤ a.mergedCount) :=
  (leaderboards_sorted
      [⟨1, "alice", "", "", "t", 100, 100, some 200, "o/r"⟩,
       ⟨2, "bob", "", "", "t2", 150, 150, some 250, "o/r"⟩]
      [] [] 0 2880 []).2.1

/-- The review count recorded for login `u`, 0 when `u` has no entry. -/
def participantReviewCount (m : List (String × Participant)) (u : String) : Nat :=
  match lookupKey m u with
  | some p => p.reviewCount
  | none => 0

/-- The length of the review list recorded for login `u`. -/
def participantReviewsLen (m : List (String × Participant)) (u : String) : Nat :=
  match lookupKey m u with
  | some p => p.reviews.length
  | none => 0

theorem processReview_skip (s e : Int) (st : AggState) (r : Review)
    (h : r.submitted_at = none ∨ ∃ t, r.submitted_at = some t ∧ ¬(s ≤ t ∧ t ≤ e)) :
    processReview s e st r = st := by
  unfold processReview
  dsimp only
  rcases h with h | ⟨t, ht, hw⟩
  · rw [h]
    split <;> rfl
  · rw [ht]
    dsimp only
    split
    · rfl
    · rw [if_neg]
      intro hcontra
      simp only [Bool.and_eq_true, decide_eq_true_eq] at hcontra
      exact hw hcontra

theorem issuesFold_participants (issues : List Issue) :
    ∀ st : AggState, (issues.foldl processIssue st).participants = st.participants := by
  induction issues with
  | nil => intro st; rfl
  | cons i rest ih =>
    intro st
    rw [List.foldl_cons, ih]
    rfl

theorem processReview_eligible (s e : Int) (st : AggState) (r : Review) (t : Int)
    (hbot : is_bot r.user = false) (hcop : hasCopilot r.user = false)
    (hdis : (r.state == "DISMISSED") = false)
    (hsub : r.submitted_at = some t) (h1 : s ≤ t) (h2 : t ≤ e) :
    processReview s e st r = { st with participants := applyReview r st.participants } := by
  unfold processReview
  dsimp only
  rw [hbot, hcop, hdis, hsub]
  dsimp only
  rw [if_neg (by simp), if_pos (by simp [h1, h2])]

/-- C10: a review contributes to a participant's `reviewCount` and review
list only if it carries a `submitted_at` timestamp falling inside the
closed window `[startTime, endTime]`: a review lacking the timestamp or
submitted outside the window leaves the entire statistics object unchanged
(whoever the reviewer is), while an otherwise-eligible review submitted
inside the window — end points included — increments its reviewer's
`reviewCount` and review list by exactly one. -/
theorem review_window_filter (prs : List PullRequest) (issues : List Issue)
    (s e : Int) (repos : List String) :
    (∀ (r : Review) (rest : List Review),
        (r.submitted_at = none ∨ ∃ t, r.submitted_at = some t ∧ ¬(s ≤ t ∧ t ≤ e)) →
        process_hackathon_stats prs (r :: rest) issues s e repos
          = process_hackathon_stats prs rest issues s e repos)
    ∧ (∀ (r : Review) (rs : List Review) (t : Int),
        is_bot r.user = false → hasCopilot r.user = false →
        (r.state == "DISMISSED") = false →
        r.submitted_at = some t → s ≤ t → t ≤ e →
        participantReviewCount
            (aggregate prs (rs ++ [r]) issues s e repos).participants r.user
          = participantReviewCount
              (aggregate prs rs issues s e repos).participants r.user + 1
        ∧ participantReviewsLen
            (aggregate prs (rs ++ [r]) issues s e repos).participants r.user
          = participantReviewsLen
              (aggregate prs rs issues s e repos).participants r.user + 1) := by
  constructor
  · intro r rest h
    have hagg : aggregate prs (r :: rest) issues s e repos
        = aggregate prs rest issues s e repos := by
      simp only [aggregate]
      rw [List.foldl_cons, processReview_skip s e _ r h]
    unfold process_hackathon_stats
    rw [hagg]
  · intro r rs t hbot hcop hdis hsub h1 h2
    have hagg : (aggregate prs (rs ++ [r]) issues s e repos).participants
        = applyReview r (aggregate prs rs issues s e repos).participants := by
      simp only [aggregate]
      rw [issuesFold_participants, List.foldl_append, List.foldl_cons, List.foldl_nil,
        processReview_eligible s e _ r t hbot hcop hdis hsub h1 h2,
        issuesFold_participants]
    rw [hagg]
    cases hl : lookupKey (aggregate prs rs issues s e repos).participants r.user with
    | none =>
      constructor <;>
        simp [participantReviewCount, participantReviewsLen, applyReview,
          lookupKey_upsert_self, hl, initParticipantReview]
    | some p =>
      constructor <;>
        simp [participantReviewCount, participantReviewsLen, applyReview,
          lookupKey_upsert_self, hl]

/-- A well-formed review submitted exactly at the window start. -/
def reviewAtStartW : Review :=
  ⟨7, "carol", "", "", "APPROVED", some 0, "", "", "t", "o/r"⟩

theorem review_window_filter_witness :
    participantReviewCount
        (aggregate [] ([] ++ [reviewAtStartW]) [] 0 2880 []).participants
        reviewAtStartW.user
      = participantReviewCount
          (aggregate [] [] [] 0 2880 []).participants reviewAtStartW.user + 1 :=
  ((review_window_filter [] [] 0 2880 []).2 reviewAtStartW [] 0
    (by decide) (by decide) (by decide) rfl (by decide) (by decide)).1

theorem processPR_participants_cases (s e : Int) (st : AggState) (pr : PullRequest) :
    ((processPR s e st pr).participants = st.participants ∧ prExcluded pr = true)
    ∨ ((processPR s e st pr).participants = applyPRAuthor pr st.participants
        ∧ prExcluded pr = false) := by
  unfold processPR
  dsimp only
  by_cases h : (is_bot pr.user || (hasCopilot pr.user || hasCopilot pr.title)) = true
  · left
    rw [if_pos h]
    exact ⟨rfl, h⟩
  · right
    rw [if_neg h]
    exact ⟨rfl, by simpa [prExcluded] using h⟩

theorem processReview_participants_cases (s e : Int) (st : AggState) (r : Review) :
    (processReview s e st r).participants = st.participants
    ∨ ((processReview s e st r).participants = applyReview r st.participants
        ∧ is_bot r.user = false ∧ hasCopilot r.user = false) := by
  unfold processReview
  dsimp only
  by_cases h : (is_bot r.user || hasCopilot r.user || r.state == "DISMISSED") = true
  · left
    rw [if_pos h]
  · rw [if_neg h]
    simp only [Bool.or_eq_true, not_or, Bool.not_eq_true] at h
    split
    · left; rfl
    · split
      · right; exact ⟨rfl, h.1.1, h.1.2⟩
      · left; rfl

theorem processIssue_participants (st : AggState) (issue : Issue) :
    (processIssue st issue).participants = st.participants := rfl

theorem processPR_totals (s e : Int) (st : AggState) (pr : PullRequest) :
    (processPR s e st pr).total_prs = st.total_prs + 1
    ∧ (processPR s e st pr).merged_prs
        = st.merged_prs + (if pr.merged_at.isSome then 1 else 0) := ⟨rfl, rfl⟩

theorem processReview_totals (s e : Int) (st : AggState) (r : Review) :
    (processReview s e st r).total_prs = st.total_prs
    ∧ (processReview s e st r).merged_prs = st.merged_prs := by
  unfold processReview
  dsimp only
  repeat' split
  all_goals exact ⟨rfl, rfl⟩

theorem processIssue_totals (st : AggState) (issue : Issue) :
    (processIssue st issue).total_prs = st.total_prs
    ∧ (processIssue st issue).merged_prs = st.merged_prs := ⟨rfl, rfl⟩

theorem prFold_totals (s e : Int) :
    ∀ (l : List PullRequest) (st : AggState),
      (l.foldl (processPR s e) st).total_prs = st.total_prs + l.length
      ∧ (l.foldl (processPR s e) st).merged_prs
          = st.merged_prs + (l.filter (fun pr => pr.merged_at.isSome)).length := by
  intro l
  induction l with
  | nil => intro st; simp
  | cons pr rest ih =>
    intro st
    rw [List.foldl_cons]
    obtain ⟨h1, h2⟩ := ih (processPR s e st pr)
    obtain ⟨h3, h4⟩ := processPR_totals s e st pr
    constructor
    · rw [h1, h3, List.length_cons]
      omega
    · rw [h2, h4, List.filter_cons]
      by_cases hm : pr.merged_at.isSome <;> (simp [hm]; try omega)

theorem reviewFold_totals (s e : Int) :
    ∀ (l : List Review) (st : AggState),
      (l.foldl (processReview s e) st).total_prs = st.total_prs
      ∧ (l.foldl (processReview s e) st).merged_prs = st.merged_prs := by
  intro l
  induction l with
  | nil => intro st; exact ⟨rfl, rfl⟩
  | cons r rest ih =>
    intro st
    rw [List.foldl_cons]
    obtain ⟨h1, h2⟩ := ih (processReview s e st r)
    obtain ⟨h3, h4⟩ := processReview_totals s e st r
    exact ⟨by rw [h1, h3], by rw [h2, h4]⟩

theorem issueFold_totals :
    ∀ (l : List Issue) (st : AggState),
      (l.foldl processIssue st).total_prs = st.total_prs
      ∧ (l.foldl processIssue st).merged_prs = st.merged_prs := by
  intro l
  induction l with
  | nil => intro st; exact ⟨rfl, rfl⟩
  | cons i rest ih =>
    intro st
    rw [List.foldl_cons]
    exact ih (processIssue st i)

theorem aggregate_totals (prs : List PullRequest) (all_reviews : List Review)
    (issues : List Issue) (s e : Int) (repos : List String) :
    (aggregate prs all_reviews issues s e repos).total_prs = prs.length
    ∧ (aggregate prs all_reviews issues s e repos).merged_prs
        = (prs.filter (fun pr => pr.merged_at.isSome)).length := by
  simp only [aggregate]
  obtain ⟨h1, h2⟩ := issueFold_totals issues
    ((all_reviews.foldl (processReview s e)) ((prs.foldl (processPR s e)) _))
  rw [h1, h2]
  obtain ⟨h3, h4⟩ := reviewFold_totals s e all_reviews ((prs.foldl (processPR s e)) _)
  rw [h3, h4]
  obtain ⟨h5, h6⟩ := prFold_totals s e prs _
  rw [h5, h6]
  constructor <;> simp

theorem applyPRAuthor_username_inv (pr : PullRequest)
    (m : List (String × Participant)) (hm : ∀ x ∈ m, x.2.username = x.1) :
    ∀ x ∈ applyPRAuthor pr m, x.2.username = x.1 := by
  intro x hx
  rcases upsert_mem_cases hx with h | ⟨h1, h2⟩
  · exact hm x h
  · rcases h2 with h2 | ⟨p, hp, h2⟩
    · rw [h2, h1]; rfl
    · rw [h2, h1]
      exact hm (pr.user, p) hp

theorem applyReview_username_inv (r : Review)
    (m : List (String × Participant)) (hm : ∀ x ∈ m, x.2.username = x.1) :
    ∀ x ∈ applyReview r m, x.2.username = x.1 := by
  intro x hx
  rcases upsert_mem_cases hx with h | ⟨h1, h2⟩
  · exact hm x h
  · rcases h2 with h2 | ⟨p, hp, h2⟩
    · rw [h2, h1]; rfl
    · rw [h2, h1]
      exact hm (r.user, p) hp

theorem applyReview_merged_inv (r : Review) (m : List (String × Participant))
    (u : String) (hm : ∀ x ∈ m, x.1 = u → x.2.mergedCount = 0) :
    ∀ x ∈ applyReview r m, x.1 = u → x.2.mergedCount = 0 := by
  intro x hx hxu
  rcases upsert_mem_cases hx with h | ⟨h1, h2⟩
  · exact hm x h hxu
  · rcases h2 with h2 | ⟨p, hp, h2⟩
    · rw [h2]; rfl
    · rw [h2]
      show p.mergedCount = 0
      exact hm (r.user, p) hp (by rw [← h1, hxu])

theorem applyPRAuthor_merged_inv (pr : PullRequest)
    (m : List (String × Participant)) (u : String) (huser : pr.user ≠ u)
    (hm : ∀ x ∈ m, x.1 = u → x.2.mergedCount = 0) :
    ∀ x ∈ applyPRAuthor pr m, x.1 = u → x.2.mergedCount = 0 := by
  intro x hx hxu
  rcases upsert_mem_cases hx with h | ⟨h1, h2⟩
  · exact hm x h hxu
  · exact absurd (by rw [← h1, hxu]) (Ne.symm huser)

theorem applyPRAuthor_key_inv (pr : PullRequest)
    (m : List (String × Participant)) (u : String) (huser : pr.user ≠ u)
    (hm : ∀ x ∈ m, x.1 ≠ u) :
    ∀ x ∈ applyPRAuthor pr m, x.1 ≠ u := by
  intro x hx
  rcases upsert_mem_cases hx with h | ⟨h1, h2⟩
  · exact hm x h
  · rw [h1]; exact huser

theorem applyReview_key_inv (r : Review)
    (m : List (String × Participant)) (u : String) (huser : r.user ≠ u)
    (hm : ∀ x ∈ m, x.1 ≠ u) :
    ∀ x ∈ applyReview r m, x.1 ≠ u := by
  intro x hx
  rcases upsert_mem_cases hx with h | ⟨h1, h2⟩
  · exact hm x h
  · rw [h1]; exact huser

theorem prFold_username_inv (s e : Int) :
    ∀ (l : List PullRequest) (st : AggState),
      (∀ x ∈ st.participants, x.2.username = x.1) →
      ∀ x ∈ (l.foldl (processPR s e) st).participants, x.2.username = x.1 := by
  intro l
  induction l with
  | nil => intro st hm; exact hm
  | cons pr rest ih =>
    intro st hm
    rw [List.foldl_cons]
    refine ih (processPR s e st pr) ?_
    rcases processPR_participants_cases s e st pr with ⟨heq, _⟩ | ⟨heq, _⟩
    · rw [heq]; exact hm
    · rw [heq]; exact applyPRAuthor_username_inv pr st.participants hm

theorem reviewFold_username_inv (s e : Int) :
    ∀ (l : List Review) (st : AggState),
      (∀ x ∈ st.participants, x.2.username = x.1) →
      ∀ x ∈ (l.foldl (processReview s e) st).participants, x.2.username = x.1 := by
  intro l
  induction l with
  | nil => intro st hm; exact hm
  | cons r rest ih =>
    intro st hm
    rw [List.foldl_cons]
    refine ih (processReview s e st r) ?_
    rcases processReview_participants_cases s e st r with heq | ⟨heq, _, _⟩
    · rw [heq]; exact hm
    · rw [heq]; exact applyReview_username_inv r st.participants hm

theorem issueFold_participants_keep (issues : List Issue) (st : AggState) :
    (issues.foldl processIssue st).participants = st.participants :=
  issuesFold_participants issues st

theorem aggregate_username_inv (prs : List PullRequest) (all_reviews : List Review)
    (issues : List Issue) (s e : Int) (repos : List String) :
    ∀ x ∈ (aggregate prs all_reviews issues s e repos).participants,
      x.2.username = x.1 := by
  simp only [aggregate]
  rw [issueFold_participants_keep]
  refine reviewFold_username_inv s e all_reviews _ ?_
  refine prFold_username_inv s e prs _ ?_
  intro x hx
  simp at hx

theorem prFold_merged_zero (s e : Int) (u : String) :
    ∀ (l : List PullRequest) (st : AggState),
      (∀ pr ∈ l, pr.user = u → prExcluded pr = true) →
      (∀ x ∈ st.participants, x.1 = u → x.2.mergedCount = 0) →
      ∀ x ∈ (l.foldl (processPR s e) st).participants,
        x.1 = u → x.2.mergedCount = 0 := by
  intro l
  induction l with
  | nil => intro st hl hm; exact hm
  | cons pr rest ih =>
    intro st hl hm
    rw [List.foldl_cons]
    refine ih (processPR s e st pr) (fun q hq => hl q (List.mem_cons_of_mem _ hq)) ?_
    rcases processPR_participants_cases s e st pr with ⟨heq, _⟩ | ⟨heq, hexc⟩
    · rw [heq]; exact hm
    · rw [heq]
      by_cases huser : pr.user = u
      · exact absurd (hl pr (List.mem_cons_self _ _) huser) (by rw [hexc]; simp)
      · exact applyPRAuthor_merged_inv pr st.participants u huser hm

theorem reviewFold_merged_zero (s e : Int) (u : String) :
    ∀ (l : List Review) (st : AggState),
      (∀ x ∈ st.participants, x.1 = u → x.2.mergedCount = 0) →
      ∀ x ∈ (l.foldl (processReview s e) st).participants,
        x.1 = u → x.2.mergedCount = 0 := by
  intro l
  induction l with
  | nil => intro st hm; exact hm
  | cons r rest ih =>
    intro st hm
    rw [List.foldl_cons]
    refine ih (processReview s e st r) ?_
    rcases processReview_participants_cases s e st r with heq | ⟨heq, _, _⟩
    · rw [heq]; exact hm
    · rw [heq]; exact applyReview_merged_inv r st.participants u hm

theorem aggregate_merged_zero (prs : List PullRequest) (all_reviews : List Review)
    (issues : List Issue) (s e : Int) (repos : List String) (u : String)
    (hp : ∀ pr ∈ prs, pr.user = u → prExcluded pr = true) :
    ∀ x ∈ (aggregate prs all_reviews issues s e repos).participants,
      x.1 = u → x.2.mergedCount = 0 := by
  simp only [aggregate]
  rw [issueFold_participants_keep]
  refine reviewFold_merged_zero s e u all_reviews _ ?_
  refine prFold_merged_zero s e u prs _ hp ?_
  intro x hx
  simp at hx

theorem prFold_key_ne (s e : Int) (u : String)
    (hu : is_bot u = true ∨ hasCopilot u = true) :
    ∀ (l : List PullRequest) (st : AggState),
      (∀ x ∈ st.participants, x.1 ≠ u) →
      ∀ x ∈ (l.foldl (processPR s e) st).participants, x.1 ≠ u := by
  intro l
  induction l with
  | nil => intro st hm; exact hm
  | cons pr rest ih =>
    intro st hm
    rw [List.foldl_cons]
    refine ih (processPR s e st pr) ?_
    rcases processPR_participants_cases s e st pr with ⟨heq, _⟩ | ⟨heq, hexc⟩
    · rw [heq]; exact hm
    · rw [heq]
      refine applyPRAuthor_key_inv pr st.participants u ?_ hm
      intro hcontra
      rw [prExcluded, hcontra] at hexc
      rcases hu with hu | hu <;> simp [hu] at hexc

theorem reviewFold_key_ne (s e : Int) (u : String)
    (hu : is_bot u = true ∨ hasCopilot u = true) :
    ∀ (l : List Review) (st : AggState),
      (∀ x ∈ st.participants, x.1 ≠ u) →
      ∀ x ∈ (l.foldl (processReview s e) st).participants, x.1 ≠ u := by
  intro l
  induction l with
  | nil => intro st hm; exact hm
  | cons r rest ih =>
    intro st hm
    rw [List.foldl_cons]
    refine ih (processReview s e st r) ?_
    rcases processReview_participants_cases s e st r with heq | ⟨heq, hb, hc⟩
    · rw [heq]; exact hm
    · rw [heq]
      refine applyReview_key_inv r st.participants u ?_ hm
      intro hcontra
      rw [hcontra] at hb hc
      rcases hu with hu | hu
      · rw [hu] at hb; exact absurd hb (by simp)
      · rw [hu] at hc; exact absurd hc (by simp)

theorem aggregate_key_ne (prs : List PullRequest) (all_reviews : List Review)
    (issues : List Issue) (s e : Int) (repos : List String) (u : String)
    (hu : is_bot u = true ∨ hasCopilot u = true) :
    ∀ x ∈ (aggregate prs all_reviews issues s e repos).participants, x.1 ≠ u := by
  simp only [aggregate]
  rw [issueFold_participants_keep]
  refine reviewFold_key_ne s e u hu all_reviews _ ?_
  refine prFold_key_ne s e u hu prs _ ?_
  intro x hx
  simp at hx

theorem processReview_skip_class (s e : Int) (st : AggState) (r : Review)
    (h : is_bot r.user = true ∨ hasCopilot r.user = true
        ∨ (r.state == "DISMISSED") = true) :
    processReview s e st r = st := by
  unfold processReview
  dsimp only
  rw [if_pos]
  rcases h with h | h | h <;> simp [h]

theorem leaderboard_username_ne (prs : List PullRequest) (all_reviews : List Review)
    (issues : List Issue) (s e : Int) (repos : List String) (u : String)
    (hzero : ∀ x ∈ (aggregate prs all_reviews issues s e repos).participants,
        x.1 = u → x.2.mergedCount = 0) :
    ∀ p ∈ (process_hackathon_stats prs all_reviews issues s e repos).leaderboard,
      p.username ≠ u := by
  intro p hp hpu
  rw [stats_leaderboard_eq, sortDescBy_mem, List.mem_filter] at hp
  obtain ⟨hmem, hpos⟩ := hp
  simp only [decide_eq_true_eq] at hpos
  obtain ⟨a, ha, hap⟩ := List.mem_map.mp hmem
  have hk : a.2.username = a.1 :=
    aggregate_username_inv prs all_reviews issues s e repos a ha
  have ha1 : a.1 = u := by rw [← hk, hap, hpu]
  have := hzero a ha ha1
  rw [hap] at this
  omega

/-- C3: an author all of whose pull requests fall under the exclusion rule
(login containing the literal "[bot]" token or ending in "bot"
case-insensitively, or "copilot" appearing case-insensitively in the login
or the PR title) never appears in the merged-PR leaderboard; a login
matching the bot pattern or containing "copilot" appears in neither
leaderboard; excluded authors' pull requests are nevertheless counted in
`totalPRs` and `mergedPRs`; and a review by a bot login, by a login
containing "copilot", or in the DISMISSED state contributes nothing — the
whole statistics object is unchanged by such a review. -/
theorem bot_copilot_exclusion (prs : List PullRequest) (all_reviews : List Review)
    (issues : List Issue) (s e : Int) (repos : List String) (u : String) :
    ((∀ pr ∈ prs, pr.user = u → prExcluded pr = true) →
      ∀ p ∈ (process_hackathon_stats prs all_reviews issues s e repos).leaderboard,
        p.username ≠ u)
    ∧ ((is_bot u = true ∨ hasCopilot u = true) →
      (∀ p ∈ (process_hackathon_stats prs all_reviews issues s e repos).leaderboard,
          p.username ≠ u)
      ∧ (∀ p ∈ (process_hackathon_stats prs all_reviews issues s e repos).reviewLeaderboard,
          p.username ≠ u))
    ∧ (process_hackathon_stats prs all_reviews issues s e repos).totalPRs = prs.length
    ∧ (process_hackathon_stats prs all_reviews issues s e repos).mergedPRs
        = (prs.filter (fun pr => pr.merged_at.isSome)).length
    ∧ (∀ (r : Review) (rest : List Review),
        (is_bot r.user = true ∨ hasCopilot r.user = true
            ∨ (r.state == "DISMISSED") = true) →
        process_hackathon_stats prs (r :: rest) issues s e repos
          = process_hackathon_stats prs rest issues s e repos) := by
  refine ⟨?_, ?_, ?_, ?_, ?_⟩
  · intro hp
    exact leaderboard_username_ne prs all_reviews issues s e repos u
      (aggregate_merged_zero prs all_reviews issues s e repos u hp)
  · intro hu
    have hkey := aggregate_key_ne prs all_reviews issues s e repos u hu
    constructor
    · intro p hp hpu
      rw [stats_leaderboard_eq, sortDescBy_mem, List.mem_filter] at hp
      obtain ⟨a, ha, hap⟩ := List.mem_map.mp hp.1
      have hk : a.2.username = a.1 :=
        aggregate_username_inv prs all_reviews issues s e repos a ha
      exact hkey a ha (by rw [← hk, hap, hpu])
    · intro p hp hpu
      rw [stats_review_leaderboard_eq, sortDescBy_mem, List.mem_filter] at hp
      obtain ⟨a, ha, hap⟩ := List.mem_map.mp hp.1
      have hk : a.2.username = a.1 :=
        aggregate_username_inv prs all_reviews issues s e repos a ha
      exact hkey a ha (by rw [← hk, hap, hpu])
  · exact (aggregate_totals prs all_reviews issues s e repos).1
  · exact (aggregate_totals prs all_reviews issues s e repos).2
  · intro r rest h
    have hagg : aggregate prs (r :: rest) issues s e repos
        = aggregate prs rest issues s e repos := by
      simp only [aggregate]
      rw [List.foldl_cons, processReview_skip_class s e _ r h]
    unfold process_hackathon_stats
    rw [hagg]

/-- A merged pull request authored by a bot account. -/
def prBotW : PullRequest :=
  ⟨9, "dependabot[bot]", "", "", "Bump dep", 100, 100, some 200, "o/r"⟩

theorem bot_copilot_exclusion_witness :
    ∀ p ∈ (process_hackathon_stats [prBotW] [] [] 0 2880 []).leaderboard,
      p.username ≠ "dependabot[bot]" :=
  ((bot_copilot_exclusion [prBotW] [] [] 0 2880 [] "dependabot[bot]").2.1
    (Or.inl (by decide))).1
